import Mathlib

/-
Verification of the DatArchive behavioural specification (spec.md) against a
shallow embedding of the archive engine.  The repository ships only the test
suite (src/dat-archive-test.js and its duplicate); the engine itself is not in
src/, so the definitions below are modelled from the spec's component design
(ChangeLog, TreeProjector, PathResolver, ArchiveEngine, WatchHub), with the
test suite taken as the authority wherever it pins concrete observable
behaviour.
-/

namespace Dat

/-! ## Path model

Modelled from the spec: PathResolver normalizes in-archive paths, tolerating
forward and back slashes and leading-slash differences.  A normalized path is
a list of segments (each a list of characters, free of separators). -/

/-- Modelled from the spec: a character is a path separator if it is a forward
or a backward slash. -/
def isSep (c : Char) : Bool := c = '/' || c = '\\'

/-- Helper for path splitting: accumulates the current segment (reversed). -/
def splitPathAux : List Char → List Char → List (List Char)
  | [], acc => if acc.isEmpty then [] else [acc.reverse]
  | c :: cs, acc =>
    if isSep c then
      if acc.isEmpty then splitPathAux cs []
      else acc.reverse :: splitPathAux cs []
    else splitPathAux cs (c :: acc)

/-- Modelled from the spec: PathResolver turns a caller-supplied path string
into a normalized list of separator-free segments (empty segments dropped,
both slash styles accepted). -/
def normPath (s : String) : List (List Char) := splitPathAux s.data []

/-- Boolean list-prefix test on segment lists. -/
def isPre : List (List Char) → List (List Char) → Bool
  | [], _ => true
  | _ :: _, [] => false
  | a :: as, b :: bs => decide (a = b) && isPre as bs

theorem isPre_iff (p q : List (List Char)) : isPre p q = true ↔ ∃ t, p ++ t = q := by
  induction p generalizing q with
  | nil => simp [isPre]
  | cons a as ih =>
    cases q with
    | nil => simp [isPre]
    | cons b bs =>
      simp only [isPre, Bool.and_eq_true, decide_eq_true_eq, ih]
      constructor
      · rintro ⟨rfl, t, rfl⟩; exact ⟨t, rfl⟩
      · rintro ⟨t, h⟩
        injection h with h1 h2
        exact ⟨h1, t, h2⟩

/-! ## ChangeLog

Modelled from the spec: an append-only sequence of path mutation records.
Versions are dense and strictly increasing; the record at list index i has
version i + 1, so density holds by construction. -/

/-- Modelled from the spec: a single ChangeLog record: a file put (with
content bytes), an explicit directory put (payload null) or a delete. -/
inductive LogRec
  | putFile (path : List (List Char)) (content : List Nat)
  | putDir (path : List (List Char))
  | del (path : List (List Char))
deriving DecidableEq

/-- The path a log record mutates. -/
def LogRec.pathOf : LogRec → List (List Char)
  | .putFile p _ => p
  | .putDir p => p
  | .del p => p

/-- True unless the record is a delete. -/
def LogRec.isPut : LogRec → Bool
  | .del _ => false
  | _ => true

/-- Modelled from the spec: an Archive owns one ChangeLog and an owner flag
(owner-writable or read-only). -/
structure Archive where
  log : List LogRec
  isOwner : Bool
deriving DecidableEq

/-- Latest version of an archive: the length of its change log. -/
def ver (a : Archive) : Nat := a.log.length

/-! ## TreeProjector

Modelled from the spec: the materialized tree is obtained by folding the
ChangeLog; a Node exists at a path iff the last Entry for that path is a Put,
and a Directory Node exists implicitly if any live descendant path exists. -/

/-- The last log record touching path p, if any. -/
def lastOp (log : List LogRec) (p : List (List Char)) : Option LogRec :=
  match log with
  | [] => none
  | r :: rest =>
    match lastOp rest p with
    | some e => some e
    | none => if r.pathOf = p then some r else none

/-- A path holds an explicitly written live node (its last record is a put). -/
def explicitLive (log : List LogRec) (q : List (List Char)) : Bool :=
  match lastOp log q with
  | some e => e.isPut
  | none => false

/-- Some live node lies strictly below p. -/
def hasDescendant (log : List LogRec) (p : List (List Char)) : Bool :=
  log.any (fun r => isPre p r.pathOf && decide (p.length < r.pathOf.length) && explicitLive log r.pathOf)

/-- A materialized tree node: a file with content bytes, or a directory. -/
inductive Node
  | file (content : List Nat)
  | dir
deriving DecidableEq

/-- Modelled from the spec: resolve a normalized path to its materialized
Node.  The root is always a directory; otherwise the last put for the path
wins, and a directory exists implicitly whenever a live descendant exists. -/
def nodeAt (log : List LogRec) (p : List (List Char)) : Option Node :=
  if p.isEmpty then some .dir
  else
    match lastOp log p with
    | some (.putFile _ c) => some (.file c)
    | some (.putDir _) => some .dir
    | _ => if hasDescendant log p then some .dir else none

/-! ## history() / ChangeLog.slice

Modelled from the spec: `history({start, end, reverse})` is a thin
pass-through to ChangeLog.slice, projecting records to
`{path, version, type}`.  Defaults: full range ascending; negative start is
clamped to 0; negative (or omitted) end means through the latest version
inclusive; otherwise the window is half-open; InvalidRange when both bounds
are concrete positive and end <= start. -/

/-- Errors of the engine, per the spec's error taxonomy. -/
inductive DatError
  | notFound | alreadyExists | parentMissing | notEmpty | invalidRange | permissionDenied
deriving DecidableEq

/-- Join segments with a separator character. -/
def joinSep (sep : Char) : List (List Char) → List Char
  | [] => []
  | [x] => x
  | x :: y :: xs => x ++ sep :: joinSep sep (y :: xs)

/-- Render a normalized path as an absolute slash-style string. -/
def renderAbs (p : List (List Char)) : String := String.mk ('/' :: joinSep '/' p)

/-- A history change record as surfaced to callers. -/
structure Change where
  path : String
  version : Nat
  ctype : String
deriving DecidableEq

/-- Project one log record at a given version to a Change. -/
def changeOf (v : Nat) (r : LogRec) : Change :=
  { path := renderAbs r.pathOf
    version := v
    ctype := if r.isPut then "put" else "del" }

/-- Attach versions v, v+1, ... to the records of a log tail. -/
def changesFrom (v : Nat) : List LogRec → List Change
  | [] => []
  | r :: rs => changeOf v r :: changesFrom (v + 1) rs

/-- The half-open version window [lo, hi) over an archive's change list;
lo is already clamped to be nonnegative. -/
def window (a : Archive) (lo hi : Int) : List Change :=
  ((changesFrom 1 a.log).drop (lo - 1).toNat).take (hi - max lo 1).toNat

/-- Reverse a change list when asked. -/
def condRev (b : Bool) (l : List Change) : List Change := if b then l.reverse else l

/-- Modelled from the spec: `history({start, end, reverse})`.  The two Option
arguments are the concrete bounds when present. -/
def history (a : Archive) (start stop : Option Int) (reverse : Bool) :
    Except DatError (List Change) :=
  let s := start.getD 0
  match stop with
  | some e =>
    if 0 < s ∧ 0 < e ∧ e ≤ s then .error .invalidRange
    else if e < 0 then .ok (condRev reverse (window a (max s 0) ((a.log.length : Int) + 1)))
    else .ok (condRev reverse (window a (max s 0) e))
  | none => .ok (condRev reverse (window a (max s 0) ((a.log.length : Int) + 1)))

theorem changesFrom_length (v : Nat) (l : List LogRec) :
    (changesFrom v l).length = l.length := by
  induction l generalizing v with
  | nil => rfl
  | cons r rs ih => simp [changesFrom, ih]

theorem changesFrom_version (v : Nat) (l : List LogRec) (i : Nat) (h : i < l.length) :
    ((changesFrom v l)[i]?).map Change.version = some (v + i) := by
  induction l generalizing v i with
  | nil => simp at h
  | cons r rs ih =>
    cases i with
    | zero => simp [changesFrom, changeOf]
    | succ j =>
      have hj : j < rs.length := by simpa using h
      have := ih (v + 1) j hj
      simpa [changesFrom, Nat.add_assoc, Nat.add_comm 1 j] using this

end Dat

/-- Claim C1: for an archive with latest version L and a history query with
concrete bounds s, e whose range lies within [1, L] (that is 1 ≤ s, s < e,
e - 1 ≤ L), history({start := s, end := e}) returns exactly e - max(s,0)
entries, the first returned entry has version max(s,0) and the last returned
entry has version e - 1. -/
theorem claim_C1_history_window (a : Dat.Archive) (s e : Int)
    (hs : 1 ≤ s) (hse : s < e) (he : e - 1 ≤ (a.log.length : Int)) :
    ∃ l, Dat.history a (some s) (some e) false = .ok l ∧
      (l.length : Int) = e - max s 0 ∧
      (l.head?).map Dat.Change.version = some (max s 0).toNat ∧
      (l.getLast?).map Dat.Change.version = some (e - 1).toNat := by
  classical
  have hnotrange : ¬ (0 < s ∧ 0 < e ∧ e ≤ s) := by omega
  have hnotneg : ¬ e < 0 := by omega
  refine ⟨Dat.window a (max s 0) e, ?_, ?_, ?_, ?_⟩
  · simp only [Dat.history, Option.getD]
    rw [if_neg hnotrange, if_neg hnotneg]
    rfl
  · have hmax : max s 0 = s := by omega
    have hmax1 : max s 1 = s := by omega
    simp only [Dat.window, hmax, hmax1, List.length_take, List.length_drop,
      Dat.changesFrom_length]
    omega
  · have hmax : max s 0 = s := by omega
    have hmax1 : max s 1 = s := by omega
    have hv := Dat.changesFrom_version 1 a.log (s - 1).toNat (by omega)
    simp only [Dat.window, hmax, hmax1]
    rw [List.head?_eq_getElem?, List.getElem?_take, if_pos (by omega)]
    rw [List.getElem?_drop, Nat.add_zero, hv]
    congr 1
    omega
  · have hmax : max s 0 = s := by omega
    have hmax1 : max s 1 = s := by omega
    have hwlen : (Dat.window a (max s 0) e).length = (e - s).toNat := by
      simp only [Dat.window, hmax, hmax1, List.length_take, List.length_drop,
        Dat.changesFrom_length]
      omega
    rw [List.getLast?_eq_getElem?, hwlen]
    simp only [Dat.window, hmax, hmax1]
    have hidx : (e - s).toNat - 1 < (e - s).toNat := by omega
    rw [List.getElem?_take, if_pos hidx, List.getElem?_drop]
    have hv := Dat.changesFrom_version 1 a.log ((s - 1).toNat + ((e - s).toNat - 1))
      (by omega)
    rw [hv]
    congr 1
    omega

/-- Claim C1 witness: a concrete three-record archive queried with
start = 1, end = 3 yields two entries with versions 1 and 2. -/
theorem claim_C1_history_window_witness :
    ∃ l, Dat.history
        { log := [Dat.LogRec.putFile [['a']] [1], Dat.LogRec.putFile [['b']] [2],
                  Dat.LogRec.putFile [['c']] [3]], isOwner := true }
        (some 1) (some 3) false = .ok l ∧
      (l.length : Int) = 3 - max 1 0 ∧
      (l.head?).map Dat.Change.version = some (max (1 : Int) 0).toNat ∧
      (l.getLast?).map Dat.Change.version = some ((3 : Int) - 1).toNat :=
  claim_C1_history_window
    { log := [Dat.LogRec.putFile [['a']] [1], Dat.LogRec.putFile [['b']] [2],
              Dat.LogRec.putFile [['c']] [3]], isOwner := true }
    1 3 (by decide) (by decide) (by decide)

/-- Claim C2: whenever both history bounds are concrete positive and the end
bound is at most the start bound, history fails with InvalidRange (the model's
history is a pure query, so the archive value is untouched by construction). -/
theorem claim_C2_history_invalid_range (a : Dat.Archive) (s e : Int) (r : Bool)
    (hs : 0 < s) (he : 0 < e) (hle : e ≤ s) :
    Dat.history a (some s) (some e) r = .error .invalidRange := by
  simp only [Dat.history, Option.getD]
  rw [if_pos ⟨hs, he, hle⟩]

/-- Claim C2 witness: the test suite's query start = 5, end = 1 is rejected
with InvalidRange on a concrete archive. -/
theorem claim_C2_history_invalid_range_witness :
    Dat.history { log := [Dat.LogRec.putFile [['a']] [1]], isOwner := true }
      (some 5) (some 1) false = .error .invalidRange :=
  claim_C2_history_invalid_range
    { log := [Dat.LogRec.putFile [['a']] [1]], isOwner := true }
    5 1 false (by decide) (by decide) (by decide)

namespace Dat

/-! ## Encodings

Modelled from the spec: readFile/writeFile accept encodings utf8 (default),
base64, hex and binary; binary is a raw byte sequence, the others are text
views; a write whose data is already raw bytes ignores the encoding.  File
content is stored as bytes; text data is a list of unicode code points and
base64/hex data a list of character codes. -/

/-- UTF-8 encoding of one code point. -/
def utf8EncodeChar (c : Nat) : List Nat :=
  if c < 128 then [c]
  else if c < 2048 then [192 + c / 64, 128 + c % 64]
  else if c < 65536 then [224 + c / 4096, 128 + c / 64 % 64, 128 + c % 64]
  else [240 + c / 262144, 128 + c / 4096 % 64, 128 + c / 64 % 64, 128 + c % 64]

/-- UTF-8 encoding of a code point sequence. -/
def utf8Encode : List Nat → List Nat
  | [] => []
  | c :: cs => utf8EncodeChar c ++ utf8Encode cs

/-- Decoder state of the UTF-8 byte machine: idle, or expecting one, two or
three more continuation bytes with the value accumulated so far. -/
inductive Utf8St
  | s0
  | s1 (acc : Nat)
  | s2 (acc : Nat)
  | s3 (acc : Nat)
deriving DecidableEq

/-- UTF-8 decoding as a byte-at-a-time state machine (malformed input yields
junk code points; only decode-of-encode is relied upon). -/
def utf8DecAux : List Nat → Utf8St → List Nat
  | [], _ => []
  | b :: rest, .s0 =>
    if b < 128 then b :: utf8DecAux rest .s0
    else if b < 224 then utf8DecAux rest (.s1 (b - 192))
    else if b < 240 then utf8DecAux rest (.s2 (b - 224))
    else utf8DecAux rest (.s3 (b - 240))
  | b :: rest, .s1 acc => (acc * 64 + (b - 128)) :: utf8DecAux rest .s0
  | b :: rest, .s2 acc => utf8DecAux rest (.s1 (acc * 64 + (b - 128)))
  | b :: rest, .s3 acc => utf8DecAux rest (.s2 (acc * 64 + (b - 128)))

/-- UTF-8 decoding of a byte sequence. -/
def utf8Decode (l : List Nat) : List Nat := utf8DecAux l .s0

set_option maxRecDepth 4000 in
theorem utf8EncodeChar_decode (c : Nat) (hc : c < 1114112) (bs : List Nat) :
    utf8DecAux (utf8EncodeChar c ++ bs) .s0 = c :: utf8DecAux bs .s0 := by
  rcases Nat.lt_or_ge c 128 with h1 | h1
  · rw [utf8EncodeChar, if_pos h1, List.cons_append, List.nil_append,
      utf8DecAux, if_pos h1]
  · rcases Nat.lt_or_ge c 2048 with h2 | h2
    · rw [utf8EncodeChar, if_neg (by omega), if_pos h2, List.cons_append,
        List.cons_append, List.nil_append, utf8DecAux, if_neg (by omega),
        if_pos (by omega), utf8DecAux]
      congr 1
      omega
    · rcases Nat.lt_or_ge c 65536 with h3 | h3
      · rw [utf8EncodeChar, if_neg (by omega), if_neg (by omega), if_pos h3,
          List.cons_append, List.cons_append, List.cons_append, List.nil_append,
          utf8DecAux, if_neg (by omega), if_neg (by omega), if_pos (by omega),
          utf8DecAux, utf8DecAux]
        congr 1
        omega
      · rw [utf8EncodeChar, if_neg (by omega), if_neg (by omega), if_neg (by omega),
          List.cons_append, List.cons_append, List.cons_append, List.cons_append,
          List.nil_append, utf8DecAux, if_neg (by omega), if_neg (by omega),
          if_neg (by omega), utf8DecAux, utf8DecAux, utf8DecAux]
        congr 1
        omega

theorem utf8_roundtrip (s : List Nat) (h : ∀ c ∈ s, c < 1114112) :
    utf8Decode (utf8Encode s) = s := by
  unfold utf8Decode
  induction s with
  | nil => rfl
  | cons c cs ih =>
    rw [utf8Encode, utf8EncodeChar_decode c (h c (by simp)) (utf8Encode cs)]
    rw [ih (fun x hx => h x (by simp [hx]))]

/-- Base64 alphabet: sextet to character code. -/
def b64CharOf (n : Nat) : Nat :=
  if n < 26 then 65 + n
  else if n < 52 then 71 + n
  else if n < 62 then n - 4
  else if n = 62 then 43 else 47

/-- Base64 alphabet: character code to sextet (unknown characters give 0). -/
def b64ValOf (c : Nat) : Nat :=
  if 65 ≤ c ∧ c ≤ 90 then c - 65
  else if 97 ≤ c ∧ c ≤ 122 then c - 71
  else if 48 ≤ c ∧ c ≤ 57 then c + 4
  else if c = 43 then 62
  else if c = 47 then 63 else 0

theorem b64ValOf_b64CharOf (n : Nat) (h : n < 64) : b64ValOf (b64CharOf n) = n := by
  unfold b64CharOf b64ValOf
  split_ifs <;> omega

theorem b64CharOf_ne_61 (n : Nat) (h : n < 64) : b64CharOf n ≠ 61 := by
  unfold b64CharOf
  split_ifs <;> omega

/-- Base64 encoding of a byte sequence, with '=' (code 61) padding. -/
def b64Encode : List Nat → List Nat
  | [] => []
  | [b1] => [b64CharOf (b1 / 4), b64CharOf (b1 % 4 * 16), 61, 61]
  | [b1, b2] => [b64CharOf (b1 / 4), b64CharOf (b1 % 4 * 16 + b2 / 16), b64CharOf (b2 % 16 * 4), 61]
  | b1 :: b2 :: b3 :: rest =>
    b64CharOf (b1 / 4) :: b64CharOf (b1 % 4 * 16 + b2 / 16) ::
      b64CharOf (b2 % 16 * 4 + b3 / 64) :: b64CharOf (b3 % 64) :: b64Encode rest

/-- Base64 decoding of a character-code sequence (incomplete groups dropped). -/
def b64Decode : List Nat → List Nat
  | [] => []
  | [_] => []
  | [_, _] => []
  | [_, _, _] => []
  | c1 :: c2 :: c3 :: c4 :: rest =>
    if c3 = 61 then [b64ValOf c1 * 4 + b64ValOf c2 / 16]
    else if c4 = 61 then
      [b64ValOf c1 * 4 + b64ValOf c2 / 16, b64ValOf c2 % 16 * 16 + b64ValOf c3 / 4]
    else
      (b64ValOf c1 * 4 + b64ValOf c2 / 16) ::
        (b64ValOf c2 % 16 * 16 + b64ValOf c3 / 4) ::
        (b64ValOf c3 % 4 * 64 + b64ValOf c4) :: b64Decode rest

theorem b64_roundtrip : ∀ bs : List Nat, (∀ b ∈ bs, b < 256) →
    b64Decode (b64Encode bs) = bs
  | [], _ => rfl
  | [b1], h => by
    have hb1 : b1 < 256 := h b1 (by simp)
    rw [b64Encode, b64Decode, if_pos rfl]
    rw [b64ValOf_b64CharOf _ (by omega), b64ValOf_b64CharOf _ (by omega)]
    congr 1
    omega
  | [b1, b2], h => by
    have hb1 : b1 < 256 := h b1 (by simp)
    have hb2 : b2 < 256 := h b2 (by simp)
    rw [b64Encode, b64Decode, if_neg (b64CharOf_ne_61 _ (by omega)), if_pos rfl]
    rw [b64ValOf_b64CharOf _ (by omega), b64ValOf_b64CharOf _ (by omega),
      b64ValOf_b64CharOf _ (by omega)]
    congr 1
    · omega
    · congr 1
      omega
  | b1 :: b2 :: b3 :: rest, h => by
    have hb1 : b1 < 256 := h b1 (by simp)
    have hb2 : b2 < 256 := h b2 (by simp)
    have hb3 : b3 < 256 := h b3 (by simp)
    rw [b64Encode]
    cases rest with
    | nil =>
      rw [b64Decode, if_neg (b64CharOf_ne_61 _ (by omega)),
        if_neg (b64CharOf_ne_61 _ (by omega))]
      rw [b64ValOf_b64CharOf _ (by omega), b64ValOf_b64CharOf _ (by omega),
        b64ValOf_b64CharOf _ (by omega), b64ValOf_b64CharOf _ (by omega)]
      rw [b64Encode, b64Decode]
      congr 1
      · omega
      · congr 1
        · omega
        · congr 1
          omega
    | cons b4 rest' =>
      rw [b64Decode, if_neg (b64CharOf_ne_61 _ (by omega)),
        if_neg (b64CharOf_ne_61 _ (by omega))]
      rw [b64ValOf_b64CharOf _ (by omega), b64ValOf_b64CharOf _ (by omega),
        b64ValOf_b64CharOf _ (by omega), b64ValOf_b64CharOf _ (by omega)]
      rw [b64_roundtrip (b4 :: rest') (fun b hb => h b (by simp at hb ⊢; tauto))]
      congr 1
      · omega
      · congr 1
        · omega
        · congr 1
          omega

/-- Hex alphabet: nibble to character code (lowercase letters). -/
def hexCharOf (n : Nat) : Nat := if n < 10 then 48 + n else 87 + n

/-- Hex alphabet: character code to nibble (unknown characters give 0). -/
def hexValOf (c : Nat) : Nat :=
  if 48 ≤ c ∧ c ≤ 57 then c - 48
  else if 97 ≤ c ∧ c ≤ 102 then c - 87
  else if 65 ≤ c ∧ c ≤ 70 then c - 55
  else 0

theorem hexValOf_hexCharOf (n : Nat) (h : n < 16) : hexValOf (hexCharOf n) = n := by
  unfold hexCharOf hexValOf
  split_ifs <;> omega

/-- Hex encoding of a byte sequence. -/
def hexEncode : List Nat → List Nat
  | [] => []
  | b :: bsr => hexCharOf (b / 16) :: hexCharOf (b % 16) :: hexEncode bsr

/-- Hex decoding of a character-code sequence (a trailing odd digit drops). -/
def hexDecode : List Nat → List Nat
  | [] => []
  | [_] => []
  | c1 :: c2 :: rest => (hexValOf c1 * 16 + hexValOf c2) :: hexDecode rest

theorem hex_roundtrip (bs : List Nat) (h : ∀ b ∈ bs, b < 256) :
    hexDecode (hexEncode bs) = bs := by
  induction bs with
  | nil => rfl
  | cons b rest ih =>
    have hb : b < 256 := h b (by simp)
    rw [hexEncode, hexDecode, hexValOf_hexCharOf _ (by omega),
      hexValOf_hexCharOf _ (by omega)]
    rw [ih (fun x hx => h x (by simp [hx]))]
    congr 1
    omega

/-- Data passed to writeFile: a string (given as code points / character
codes) or a raw byte buffer. -/
inductive FileData
  | str (cps : List Nat)
  | buf (bytes : List Nat)
deriving DecidableEq

/-- The encodings accepted by readFile/writeFile. -/
inductive Encoding
  | utf8 | base64 | hex | binary
deriving DecidableEq

/-- Modelled from the spec: the bytes stored by writeFile.  Raw-byte data is
stored unchanged regardless of encoding; string data is decoded per the
selected encoding (utf8 when omitted). -/
def encodeData : FileData → Option Encoding → List Nat
  | .buf b, _ => b
  | .str s, some .base64 => b64Decode s
  | .str s, some .hex => hexDecode s
  | .str s, some .binary => s
  | .str s, _ => utf8Encode s

/-- Modelled from the spec: the value readFile returns for stored bytes under
the requested encoding (utf8 when omitted). -/
def decodeContent (c : List Nat) : Option Encoding → FileData
  | some .binary => .buf c
  | some .base64 => .str (b64Encode c)
  | some .hex => .str (hexEncode c)
  | _ => .str (utf8Decode c)

/-- Modelled from the spec: writeFile requires ownership, fails ParentMissing
if the immediate parent is not a directory node, and otherwise appends a
single put entry with the encoded bytes. -/
def writeFile (a : Archive) (raw : String) (data : FileData) (enc : Option Encoding) :
    Except DatError Archive :=
  if a.isOwner = false then .error .permissionDenied
  else if nodeAt a.log (normPath raw).dropLast = some .dir then
    .ok { a with log := a.log ++ [.putFile (normPath raw) (encodeData data enc)] }
  else .error .parentMissing

/-- Modelled from the spec: readFile resolves the path at the latest version
and fails NotFound when it is absent or a directory. -/
def readFile (a : Archive) (raw : String) (enc : Option Encoding) :
    Except DatError FileData :=
  match nodeAt a.log (normPath raw) with
  | some (.file c) => .ok (decodeContent c enc)
  | _ => .error .notFound

/-- A data value is expressible in an encoding: any unicode text for utf8,
a canonical base64/hex rendering of some byte sequence for base64/hex, and
any raw buffer for binary. -/
def validData : Encoding → FileData → Prop
  | .utf8, .str s => ∀ c ∈ s, c < 1114112
  | .base64, .str s => ∃ bs, (∀ b ∈ bs, b < 256) ∧ s = b64Encode bs
  | .hex, .str s => ∃ bs, (∀ b ∈ bs, b < 256) ∧ s = hexEncode bs
  | .binary, .buf _ => True
  | _, _ => False

theorem lastOp_append_of_some (l1 l2 : List LogRec) (p : List (List Char)) (e : LogRec)
    (h : lastOp l2 p = some e) : lastOp (l1 ++ l2) p = some e := by
  induction l1 with
  | nil => simpa using h
  | cons r rest ih =>
    show lastOp (r :: (rest ++ l2)) p = some e
    rw [lastOp, ih]

theorem lastOp_append_of_none (l1 l2 : List LogRec) (p : List (List Char))
    (h : lastOp l2 p = none) : lastOp (l1 ++ l2) p = lastOp l1 p := by
  induction l1 with
  | nil => simpa using h
  | cons r rest ih =>
    show lastOp (r :: (rest ++ l2)) p = lastOp (r :: rest) p
    rw [lastOp, ih]
    rfl

theorem lastOp_single (e : LogRec) (p : List (List Char)) :
    lastOp [e] p = if e.pathOf = p then some e else none := by
  rfl

end Dat

/-- Claim C3: for every valid file path whose parent directory exists, every
data value expressible in the chosen encoding, and every encoding among utf8,
base64, hex and binary, writing the data and reading it back with the same
encoding returns the data unchanged (write/read round-trip). -/
theorem claim_C3_write_read_roundtrip (a : Dat.Archive) (raw : String)
    (enc : Dat.Encoding) (D : Dat.FileData) (a' : Dat.Archive)
    (hroot : Dat.normPath raw ≠ [])
    (hval : Dat.validData enc D)
    (hw : Dat.writeFile a raw D (some enc) = .ok a') :
    Dat.readFile a' raw (some enc) = .ok D := by
  unfold Dat.writeFile at hw
  split at hw
  · exact absurd hw (by simp)
  · split at hw
    · rename_i hpar
      injection hw with hw
      subst hw
      unfold Dat.readFile
      have hlast : Dat.lastOp
          (a.log ++ [Dat.LogRec.putFile (Dat.normPath raw) (Dat.encodeData D (some enc))])
          (Dat.normPath raw)
          = some (Dat.LogRec.putFile (Dat.normPath raw) (Dat.encodeData D (some enc))) := by
        apply Dat.lastOp_append_of_some
        rw [Dat.lastOp_single]
        simp [Dat.LogRec.pathOf]
      rw [Dat.nodeAt, if_neg (by simpa using hroot), hlast]
      cases enc with
      | utf8 =>
        cases D with
        | str s =>
          simp only [Dat.encodeData, Dat.decodeContent]
          rw [Dat.utf8_roundtrip s hval]
        | buf b => exact absurd hval (by simp [Dat.validData])
      | base64 =>
        cases D with
        | str s =>
          obtain ⟨bs, hbs, rfl⟩ := hval
          simp only [Dat.encodeData, Dat.decodeContent]
          rw [Dat.b64_roundtrip bs hbs]
        | buf b => exact absurd hval (by simp [Dat.validData])
      | hex =>
        cases D with
        | str s =>
          obtain ⟨bs, hbs, rfl⟩ := hval
          simp only [Dat.encodeData, Dat.decodeContent]
          rw [Dat.hex_roundtrip bs hbs]
        | buf b => exact absurd hval (by simp [Dat.validData])
      | binary =>
        cases D with
        | str s => exact absurd hval (by simp [Dat.validData])
        | buf b => simp [Dat.encodeData, Dat.decodeContent]
    · exact absurd hw (by simp)

/-- Fresh owner archive used by the write/read round-trip witness. -/
def c3Fresh : Dat.Archive := { log := [], isOwner := true }

/-- The archive after the witness write of "hi" to "t.txt". -/
def c3Written : Dat.Archive :=
  { log := [Dat.LogRec.putFile [['t', '.', 't', 'x', 't']] [104, 105]], isOwner := true }

/-- Claim C3 witness: writing the utf8 text "hi" (code points 104, 105) to
"t.txt" in a fresh owner archive and reading it back returns the same text. -/
theorem claim_C3_write_read_roundtrip_witness :
    Dat.normPath "t.txt" ≠ [] ∧
    Dat.validData .utf8 (Dat.FileData.str [104, 105]) ∧
    Dat.writeFile c3Fresh "t.txt" (Dat.FileData.str [104, 105]) (some .utf8) = .ok c3Written ∧
    Dat.readFile c3Written "t.txt" (some .utf8) = .ok (Dat.FileData.str [104, 105]) :=
  ⟨by decide, by show ∀ c ∈ [104, 105], c < 1114112; decide, by rfl,
    claim_C3_write_read_roundtrip c3Fresh "t.txt" .utf8 (Dat.FileData.str [104, 105])
      c3Written (by decide) (by show ∀ c ∈ [104, 105], c < 1114112; decide) (by rfl)⟩

namespace Dat

/-! ## Directory operations

Modelled from the spec: mkdir/unlink/rmdir validate against the current
materialized view and append a single entry; copy and rename are multi-entry
operations whose preconditions are validated up front, so a failure returns an
error without producing a new archive value (the caller's archive is a pure
value, hence unchanged by construction). -/

/-- Modelled from the spec: mkdir fails ParentMissing if the parent is absent
and AlreadyExists if any node (file or directory) already occupies the path. -/
def mkdir (a : Archive) (raw : String) : Except DatError Archive :=
  if a.isOwner = false then .error .permissionDenied
  else if nodeAt a.log (normPath raw).dropLast = some .dir then
    if (nodeAt a.log (normPath raw)).isSome then .error .alreadyExists
    else .ok { a with log := a.log ++ [.putDir (normPath raw)] }
  else .error .parentMissing

/-- Modelled from the spec: unlink fails NotFound if the path is absent or is
a directory (directories must use rmdir). -/
def unlink (a : Archive) (raw : String) : Except DatError Archive :=
  if a.isOwner = false then .error .permissionDenied
  else
    match nodeAt a.log (normPath raw) with
    | some (.file _) => .ok { a with log := a.log ++ [.del (normPath raw)] }
    | _ => .error .notFound

/-- Modelled from the spec: rmdir fails NotFound if the path is absent or not
a directory and NotEmpty if any descendant node exists. -/
def rmdir (a : Archive) (raw : String) : Except DatError Archive :=
  if a.isOwner = false then .error .permissionDenied
  else
    match nodeAt a.log (normPath raw) with
    | some .dir =>
      if hasDescendant a.log (normPath raw) then .error .notEmpty
      else .ok { a with log := a.log ++ [.del (normPath raw)] }
    | _ => .error .notFound

/-- The nonempty prefixes of a segment list. -/
def nePrefixes : List (List Char) → List (List (List Char))
  | [] => []
  | x :: t => [x] :: (nePrefixes t).map (fun r => x :: r)

/-- The paths of live nodes lying strictly below p (with repetitions). -/
def strictDescs (log : List LogRec) (p : List (List Char)) : List (List (List Char)) :=
  (log.map LogRec.pathOf).filter
    (fun q => isPre p q && decide (p.length < q.length) && explicitLive log q)

/-- The relative paths of every node of the subtree strictly below p,
including implicit intermediate directories, without repetitions. -/
def descRels (log : List LogRec) (p : List (List Char)) : List (List (List Char)) :=
  (((strictDescs log p).map (fun q => q.drop p.length)).flatMap nePrefixes).dedup

/-- The names of the immediate children of directory p. -/
def childNames (log : List LogRec) (p : List (List Char)) : List (List Char) :=
  ((strictDescs log p).map (fun q => (q.drop p.length).headD [])).dedup

/-- The entry that copying the subtree of s to d produces for relative path r:
a file put with the source content when the source node is a file, otherwise a
directory put. -/
def copyEntryFor (log : List LogRec) (s d : List (List Char)) (r : List (List Char)) :
    LogRec :=
  match nodeAt log (s ++ r) with
  | some (.file c) => .putFile (d ++ r) c
  | _ => .putDir (d ++ r)

/-- The entries appended by a directory copy of s onto d. -/
def copyEntries (log : List LogRec) (s d : List (List Char)) : List LogRec :=
  LogRec.putDir d :: (descRels log s).map (copyEntryFor log s d)

/-- The delete entries removing the subtree of s and s itself. -/
def delEntries (log : List LogRec) (s : List (List Char)) : List LogRec :=
  (descRels log s).map (fun r => LogRec.del (s ++ r)) ++ [LogRec.del s]

/-- Modelled from the spec: copy duplicates a file (overwriting any existing
destination file) or recursively duplicates a directory, merging with an
existing destination directory; fails NotFound if the source is absent. -/
def copy (a : Archive) (rawS rawD : String) : Except DatError Archive :=
  if a.isOwner = false then .error .permissionDenied
  else
    match nodeAt a.log (normPath rawS) with
    | some (.file c) => .ok { a with log := a.log ++ [.putFile (normPath rawD) c] }
    | some .dir => .ok { a with log := a.log ++ copyEntries a.log (normPath rawS) (normPath rawD) }
    | none => .error .notFound

/-- Modelled from the spec: rename is copy followed by recursive delete of the
source as one logical operation; it fails NotFound if the source is absent and
AlreadyExists if any node already occupies the destination. -/
def rename (a : Archive) (rawS rawD : String) : Except DatError Archive :=
  if a.isOwner = false then .error .permissionDenied
  else
    match nodeAt a.log (normPath rawS) with
    | none => .error .notFound
    | some n =>
      if (nodeAt a.log (normPath rawD)).isSome then .error .alreadyExists
      else
        match n with
        | .file c =>
          .ok { a with log := a.log ++ [.putFile (normPath rawD) c, .del (normPath rawS)] }
        | .dir =>
          .ok { a with log := a.log ++ copyEntries a.log (normPath rawS) (normPath rawD)
                  ++ delEntries a.log (normPath rawS) }

/-- Render a relative segment list in the caller's separator style: backslash
style carries a leading backslash (as the test suite pins), slash style is
bare. -/
def renderRel (win : Bool) (r : List (List Char)) : String :=
  if win then String.mk ('\\' :: joinSep '\\' r) else String.mk (joinSep '/' r)

/-- Modelled from the spec: readdir lists immediate child names, or, when
recursive, the full subtree rendered in the separator style of the query
path. -/
def readdir (a : Archive) (raw : String) (recursive : Bool) : List String :=
  if recursive then
    (descRels a.log (normPath raw)).map (renderRel (raw.data.contains '\\'))
  else (childNames a.log (normPath raw)).map (fun n => String.mk n)

/-! ### Projection lemmas -/

theorem lastOp_mem (log : List LogRec) (p : List (List Char)) (e : LogRec)
    (h : lastOp log p = some e) : e ∈ log ∧ e.pathOf = p := by
  induction log with
  | nil => simp [lastOp] at h
  | cons r rest ih =>
    rw [lastOp] at h
    cases hr : lastOp rest p with
    | some x =>
      rw [hr] at h
      injection h with h
      subst h
      obtain ⟨hm, hp⟩ := ih hr
      exact ⟨by simp [hm], hp⟩
    | none =>
      rw [hr] at h
      by_cases hq : r.pathOf = p
      · rw [if_pos hq] at h
        injection h with h
        subst h
        exact ⟨by simp, hq⟩
      · rw [if_neg hq] at h
        exact absurd h (by simp)

theorem lastOp_eq_none (log : List LogRec) (p : List (List Char))
    (h : p ∉ log.map LogRec.pathOf) : lastOp log p = none := by
  induction log with
  | nil => rfl
  | cons r rest ih =>
    rw [lastOp, ih (fun hm => h (by simp [hm]))]
    rw [if_neg (fun he => h (by simp [he]))]

theorem lastOp_isSome (log : List LogRec) (p : List (List Char))
    (h : p ∈ log.map LogRec.pathOf) : (lastOp log p).isSome = true := by
  induction log with
  | nil => simp at h
  | cons r rest ih =>
    rw [lastOp]
    cases hr : lastOp rest p with
    | some x => simp
    | none =>
      rcases List.mem_map.mp h with ⟨e, he, hep⟩
      rcases List.mem_cons.mp he with rfl | he'
      · rw [if_pos hep]
        simp
      · have := ih (List.mem_map.mpr ⟨e, he', hep⟩)
        rw [hr] at this
        simp at this

theorem lastOp_unique (log : List LogRec) (e : LogRec)
    (hnd : (log.map LogRec.pathOf).Nodup) (he : e ∈ log) :
    lastOp log e.pathOf = some e := by
  induction log with
  | nil => simp at he
  | cons r rest ih =>
    rw [List.map_cons, List.nodup_cons] at hnd
    rcases List.mem_cons.mp he with rfl | he'
    · rw [lastOp, lastOp_eq_none rest e.pathOf hnd.1, if_pos rfl]
    · rw [lastOp, ih hnd.2 he']

theorem mem_nePrefixes (x : List (List Char)) (l : List (List Char)) :
    x ∈ nePrefixes l ↔ x ≠ [] ∧ ∃ t, x ++ t = l := by
  induction l generalizing x with
  | nil =>
    simp only [nePrefixes, List.not_mem_nil, false_iff]
    rintro ⟨hx, t, ht⟩
    exact hx (by cases x <;> simp_all)
  | cons s l' ih =>
    simp only [nePrefixes, List.mem_cons, List.mem_map]
    constructor
    · rintro (rfl | ⟨r, hr, rfl⟩)
      · exact ⟨by simp, l', by simp⟩
      · obtain ⟨hr0, t, ht⟩ := (ih r).mp hr
        exact ⟨by simp, t, by simp [ht]⟩
    · rintro ⟨hx, t, ht⟩
      cases x with
      | nil => exact absurd rfl hx
      | cons x0 xr =>
        injection ht with h1 h2
        subst h1
        cases xr with
        | nil => exact Or.inl rfl
        | cons y yr =>
          refine Or.inr ⟨y :: yr, (ih (y :: yr)).mpr ⟨by simp, t, h2⟩, rfl⟩

theorem mem_strictDescs (log : List LogRec) (p q : List (List Char)) :
    q ∈ strictDescs log p ↔
      q ∈ log.map LogRec.pathOf ∧ (∃ t, p ++ t = q) ∧ p.length < q.length ∧
        explicitLive log q = true := by
  simp only [strictDescs, List.mem_filter, Bool.and_eq_true, decide_eq_true_eq]
  rw [isPre_iff]
  tauto

end Dat

namespace Dat

theorem isEmpty_false_of_ne_nil (l : List (List Char)) (h : l ≠ []) :
    l.isEmpty = false := by
  cases l with
  | nil => exact absurd rfl h
  | cons x t => rfl

/-- Characterization of the recursive subtree listing: a nonempty relative
path is listed beneath p exactly when a node exists there. -/
theorem mem_descRels (log : List LogRec) (p r : List (List Char)) :
    r ∈ descRels log p ↔ r ≠ [] ∧ (nodeAt log (p ++ r)).isSome = true := by
  rw [descRels, List.mem_dedup, List.mem_flatMap]
  constructor
  · rintro ⟨x, hx, hr⟩
    rcases List.mem_map.mp hx with ⟨q, hq, rfl⟩
    rcases (mem_strictDescs log p q).mp hq with ⟨hmem, ⟨u, hu⟩, hlen, hlive⟩
    rcases (mem_nePrefixes r (q.drop p.length)).mp hr with ⟨hr0, t, ht⟩
    subst hu
    rw [List.drop_left] at ht
    refine ⟨hr0, ?_⟩
    have hne : p ++ r ≠ [] := fun h => hr0 (List.append_eq_nil.mp h).2
    rcases t with _ | ⟨t0, tr⟩
    · rw [List.append_nil] at ht
      subst ht
      rw [explicitLive] at hlive
      rw [nodeAt, isEmpty_false_of_ne_nil _ hne]
      cases hl : lastOp log (p ++ r) with
      | none => rw [hl] at hlive; simp at hlive
      | some e =>
        rw [hl] at hlive
        cases e <;> simp_all [LogRec.isPut]
    · have hdesc : hasDescendant log (p ++ r) = true := by
        rw [hasDescendant, List.any_eq_true]
        rcases List.mem_map.mp hmem with ⟨rec, hrec, hrecp⟩
        refine ⟨rec, hrec, ?_⟩
        rw [Bool.and_eq_true, Bool.and_eq_true, hrecp]
        refine ⟨⟨?_, ?_⟩, ?_⟩
        · rw [isPre_iff]
          exact ⟨t0 :: tr, by rw [List.append_assoc, ht]⟩
        · rw [← ht]
          simp only [List.length_append, List.length_cons, decide_eq_true_eq]
          omega
        · exact hlive
      rw [nodeAt, isEmpty_false_of_ne_nil _ hne]
      cases hl : lastOp log (p ++ r) with
      | none => simp [hdesc]
      | some e => cases e <;> simp [hdesc]
  · rintro ⟨hr0, hsome⟩
    have hne : p ++ r ≠ [] := fun h => hr0 (List.append_eq_nil.mp h).2
    rw [nodeAt, isEmpty_false_of_ne_nil _ hne] at hsome
    have main : ∀ q, q ∈ log.map LogRec.pathOf → (∃ t, (p ++ r) ++ t = q) →
        explicitLive log q = true →
        ∃ x ∈ (strictDescs log p).map (fun q => q.drop p.length), r ∈ nePrefixes x := by
      rintro q hqmem ⟨t, ht⟩ hqlive
      refine ⟨q.drop p.length, List.mem_map.mpr ⟨q, ?_, rfl⟩, ?_⟩
      · rw [mem_strictDescs]
        refine ⟨hqmem, ⟨r ++ t, by rw [← List.append_assoc, ht]⟩, ?_, hqlive⟩
        subst ht
        simp only [List.append_assoc, List.length_append]
        rcases r with _ | ⟨r0, rr⟩
        · exact absurd rfl hr0
        · simp only [List.length_cons]
          omega
      · rw [mem_nePrefixes]
        refine ⟨hr0, t, ?_⟩
        subst ht
        rw [List.append_assoc, List.drop_left]
    simp only [Bool.false_eq_true, if_false] at hsome
    cases hl : lastOp log (p ++ r) with
    | some e =>
      obtain ⟨hemem, hep⟩ := lastOp_mem log (p ++ r) e hl
      have hqmem : (p ++ r) ∈ log.map LogRec.pathOf :=
        List.mem_map.mpr ⟨e, hemem, hep⟩
      cases e with
      | putFile q c =>
        exact main (p ++ r) hqmem ⟨[], by simp⟩ (by rw [explicitLive, hl]; rfl)
      | putDir q =>
        exact main (p ++ r) hqmem ⟨[], by simp⟩ (by rw [explicitLive, hl]; rfl)
      | del q =>
        rw [hl] at hsome
        have hdesc : hasDescendant log (p ++ r) = true := by
          by_contra hcon
          rw [Bool.not_eq_true] at hcon
          rw [hcon] at hsome
          simp at hsome
        rw [hasDescendant, List.any_eq_true] at hdesc
        obtain ⟨rec, hrec, hprops⟩ := hdesc
        rw [Bool.and_eq_true, Bool.and_eq_true, isPre_iff] at hprops
        obtain ⟨⟨⟨t, ht⟩, hlt⟩, hlive⟩ := hprops
        exact main rec.pathOf (List.mem_map.mpr ⟨rec, hrec, rfl⟩) ⟨t, ht⟩ hlive
    | none =>
      rw [hl] at hsome
      have hdesc : hasDescendant log (p ++ r) = true := by
        by_contra hcon
        rw [Bool.not_eq_true] at hcon
        rw [hcon] at hsome
        simp at hsome
      rw [hasDescendant, List.any_eq_true] at hdesc
      obtain ⟨rec, hrec, hprops⟩ := hdesc
      rw [Bool.and_eq_true, Bool.and_eq_true, isPre_iff] at hprops
      obtain ⟨⟨⟨t, ht⟩, hlt⟩, hlive⟩ := hprops
      exact main rec.pathOf (List.mem_map.mpr ⟨rec, hrec, rfl⟩) ⟨t, ht⟩ hlive

end Dat

namespace Dat

theorem explicitLive_append_none (log es : List LogRec) (q : List (List Char))
    (h : lastOp es q = none) : explicitLive (log ++ es) q = explicitLive log q := by
  rw [explicitLive, explicitLive, lastOp_append_of_none log es q h]

theorem explicitLive_append_some (log es : List LogRec) (q : List (List Char)) (e : LogRec)
    (h : lastOp es q = some e) : explicitLive (log ++ es) q = e.isPut := by
  rw [explicitLive, lastOp_append_of_some log es q e h]

end Dat

/-- Claim C5: on an owner archive, rename fails NotFound when the source is
absent, and fails AlreadyExists when the source exists and any node (file or
directory) already occupies the destination; a failing rename returns only an
error, so no entry is appended and the caller's archive value is unchanged. -/
theorem claim_C5_rename_errors (a : Dat.Archive) (rawS rawD : String)
    (hown : a.isOwner = true) :
    (Dat.nodeAt a.log (Dat.normPath rawS) = none →
      Dat.rename a rawS rawD = .error .notFound) ∧
    (∀ n m, Dat.nodeAt a.log (Dat.normPath rawS) = some n →
      Dat.nodeAt a.log (Dat.normPath rawD) = some m →
      Dat.rename a rawS rawD = .error .alreadyExists) := by
  constructor
  · intro h
    simp [Dat.rename, hown, h]
  · intro n m hs hd
    simp [Dat.rename, hown, hs, hd]

/-- Supporting archive for the rename-error witness: two files a and b. -/
def c5A : Dat.Archive :=
  { log := [Dat.LogRec.putFile [['a']] [1], Dat.LogRec.putFile [['b']] [2]], isOwner := true }

/-- Claim C5 witness: renaming a missing source fails NotFound, and renaming
file a onto existing file b fails AlreadyExists. -/
theorem claim_C5_rename_errors_witness :
    Dat.rename c5A "zz" "b" = .error .notFound ∧
    Dat.rename c5A "a" "b" = .error .alreadyExists :=
  ⟨(claim_C5_rename_errors c5A "zz" "b" (by rfl)).1 (by decide),
   (claim_C5_rename_errors c5A "a" "b" (by rfl)).2 (Dat.Node.file [1]) (Dat.Node.file [2])
     (by decide) (by decide)⟩

/-- Claim C7: rmdir fails NotFound when the path is absent or not a
directory, fails NotEmpty whenever the directory has any descendant node, and
once every child has been removed it succeeds, after which the directory's
name no longer appears among its parent's children. -/
theorem claim_C7_rmdir (a : Dat.Archive) (raw : String) (hown : a.isOwner = true) :
    (Dat.nodeAt a.log (Dat.normPath raw) ≠ some .dir →
      Dat.rmdir a raw = .error .notFound) ∧
    (Dat.nodeAt a.log (Dat.normPath raw) = some .dir →
      Dat.hasDescendant a.log (Dat.normPath raw) = true →
      Dat.rmdir a raw = .error .notEmpty) ∧
    (∀ pp n, Dat.normPath raw = pp ++ [n] →
      Dat.nodeAt a.log (Dat.normPath raw) = some .dir →
      Dat.hasDescendant a.log (Dat.normPath raw) = false →
      ∃ a', Dat.rmdir a raw = .ok a' ∧ n ∉ Dat.childNames a'.log pp) := by
  refine ⟨?_, ?_, ?_⟩
  · intro h
    rw [Dat.rmdir, if_neg (by rw [hown]; simp)]
    cases hn : Dat.nodeAt a.log (Dat.normPath raw) with
    | none => rfl
    | some nd =>
      cases nd with
      | file c => rfl
      | dir => exact absurd hn h
  · intro hdir hdesc
    rw [Dat.rmdir, if_neg (by rw [hown]; simp), hdir]
    simp [hdesc]
  · intro pp n hp hdir hdesc
    refine ⟨{ a with log := a.log ++ [Dat.LogRec.del (Dat.normPath raw)] }, ?_, ?_⟩
    · rw [Dat.rmdir, if_neg (by rw [hown]; simp), hdir]
      simp [hdesc]
    · intro hmem
      rw [Dat.childNames, List.mem_dedup] at hmem
      rcases List.mem_map.mp hmem with ⟨q, hq, hhead⟩
      rw [Dat.mem_strictDescs] at hq
      obtain ⟨hqmem, ⟨u, hu⟩, hlen, hlive⟩ := hq
      have hlastp : Dat.lastOp [Dat.LogRec.del (Dat.normPath raw)] (Dat.normPath raw)
          = some (Dat.LogRec.del (Dat.normPath raw)) := by
        rw [Dat.lastOp_single]
        simp [Dat.LogRec.pathOf]
      have hqne : q ≠ Dat.normPath raw := by
        rintro rfl
        rw [Dat.explicitLive_append_some a.log _ _ _ hlastp] at hlive
        simp [Dat.LogRec.isPut] at hlive
      have hnone : Dat.lastOp [Dat.LogRec.del (Dat.normPath raw)] q = none := by
        rw [Dat.lastOp_single, if_neg]
        exact fun he => hqne (Eq.symm he)
      have hlive' : Dat.explicitLive a.log q = true := by
        rw [Dat.explicitLive_append_none a.log _ q hnone] at hlive
        exact hlive
      have hqmem' : q ∈ a.log.map Dat.LogRec.pathOf := by
        rw [List.map_append] at hqmem
        rcases List.mem_append.mp hqmem with h | h
        · exact h
        · simp [Dat.LogRec.pathOf] at h
          exact absurd h hqne
      subst hu
      rw [List.drop_left] at hhead
      cases u with
      | nil => simp at hlen
      | cons n0 ur =>
        simp only [List.headD_cons] at hhead
        subst hhead
        cases ur with
        | nil => exact hqne (Eq.symm hp)
        | cons u1 urr =>
          have hdesc' : Dat.hasDescendant a.log (Dat.normPath raw) = true := by
            rw [Dat.hasDescendant, List.any_eq_true]
            rcases List.mem_map.mp hqmem' with ⟨rec, hrec, hrecp⟩
            refine ⟨rec, hrec, ?_⟩
            rw [Bool.and_eq_true, Bool.and_eq_true, hrecp, hp]
            refine ⟨⟨?_, ?_⟩, hlive'⟩
            · rw [Dat.isPre_iff]
              exact ⟨u1 :: urr, by simp⟩
            · simp only [List.length_append, List.length_cons, List.length_nil,
                decide_eq_true_eq]
              omega
          rw [hdesc'] at hdesc
          simp at hdesc

/-- Supporting archive for the rmdir witness: one empty directory f. -/
def c7Dir : Dat.Archive := { log := [Dat.LogRec.putDir [['f']]], isOwner := true }

/-- Supporting archive for the rmdir witness: directory f holding file t. -/
def c7Full : Dat.Archive :=
  { log := [Dat.LogRec.putDir [['f']], Dat.LogRec.putFile [['f'], ['t']] [1]],
    isOwner := true }

/-- Claim C7 witness: rmdir of a missing path fails NotFound, rmdir of a
non-empty directory fails NotEmpty, and rmdir of the emptied directory
succeeds and removes its name from the root listing. -/
theorem claim_C7_rmdir_witness :
    Dat.rmdir c7Dir "x" = .error .notFound ∧
    Dat.rmdir c7Full "f" = .error .notEmpty ∧
    (∃ a', Dat.rmdir c7Dir "f" = .ok a' ∧ ['f'] ∉ Dat.childNames a'.log []) :=
  ⟨(claim_C7_rmdir c7Dir "x" (by rfl)).1 (by decide),
   (claim_C7_rmdir c7Full "f" (by rfl)).2.1 (by decide) (by decide),
   (claim_C7_rmdir c7Dir "f" (by rfl)).2.2 [] ['f'] (by decide) (by decide) (by decide)⟩

namespace Dat

theorem nodeAt_eq_file (log : List LogRec) (p : List (List Char)) (c : List Nat)
    (h : nodeAt log p = some (.file c)) :
    ∃ q, lastOp log p = some (LogRec.putFile q c) := by
  rw [nodeAt] at h
  by_cases hp : p.isEmpty = true
  · rw [if_pos hp] at h
    simp at h
  · rw [if_neg hp] at h
    cases hl : lastOp log p with
    | some e =>
      cases e with
      | putFile q cc =>
        rw [hl] at h
        injection h with h
        injection h with h
        subst h
        exact ⟨q, rfl⟩
      | putDir q =>
        rw [hl] at h
        simp at h
      | del q =>
        rw [hl] at h
        split_ifs at h <;> simp at h
    | none =>
      rw [hl] at h
      split_ifs at h <;> simp at h

theorem nodeAt_of_lastOp_file (log : List LogRec) (p q : List (List Char)) (c : List Nat)
    (hp : p ≠ []) (h : lastOp log p = some (.putFile q c)) :
    nodeAt log p = some (.file c) := by
  rw [nodeAt, isEmpty_false_of_ne_nil p hp, if_neg (by simp), h]

theorem copyEntryFor_path (log : List LogRec) (s d r : List (List Char)) :
    (copyEntryFor log s d r).pathOf = d ++ r := by
  rw [copyEntryFor]
  cases h : nodeAt log (s ++ r) with
  | none => rfl
  | some nd => cases nd <;> rfl

theorem copyEntries_isPut (log : List LogRec) (s d : List (List Char)) :
    ∀ e ∈ copyEntries log s d, e.isPut = true := by
  intro e he
  rcases List.mem_cons.mp he with rfl | he'
  · rfl
  · rcases List.mem_map.mp he' with ⟨r, hr, rfl⟩
    rw [copyEntryFor]
    cases h : nodeAt log (s ++ r) with
    | none => rfl
    | some nd => cases nd <;> rfl

theorem copyEntries_paths (log : List LogRec) (s d : List (List Char)) :
    (copyEntries log s d).map LogRec.pathOf
      = d :: (descRels log s).map (fun r => d ++ r) := by
  rw [copyEntries, List.map_cons, List.map_map]
  congr 1
  apply List.map_congr_left
  intro r hr
  exact copyEntryFor_path log s d r

theorem descRels_nodup (log : List LogRec) (p : List (List Char)) :
    (descRels log p).Nodup := by
  rw [descRels]
  exact List.nodup_dedup _

theorem copyEntries_paths_nodup (log : List LogRec) (s d : List (List Char)) :
    ((copyEntries log s d).map LogRec.pathOf).Nodup := by
  rw [copyEntries_paths, List.nodup_cons]
  constructor
  · intro hmem
    rcases List.mem_map.mp hmem with ⟨r, hr, heq⟩
    have h0 : r = [] := by
      have := congrArg List.length heq
      simp only [List.length_append] at this
      rw [← List.length_eq_zero]
      omega
    rw [mem_descRels] at hr
    exact absurd h0 hr.1
  · exact List.Nodup.map (fun x y hxy => List.append_cancel_left hxy) (descRels_nodup log s)

theorem lastOp_copyEntries (log : List LogRec) (s d r : List (List Char))
    (hr : r ∈ descRels log s) :
    lastOp (copyEntries log s d) (d ++ r) = some (copyEntryFor log s d r) := by
  have hmem : copyEntryFor log s d r ∈ copyEntries log s d :=
    List.mem_cons.mpr (Or.inr (List.mem_map.mpr ⟨r, hr, rfl⟩))
  have h := lastOp_unique (copyEntries log s d) (copyEntryFor log s d r)
    (copyEntries_paths_nodup log s d) hmem
  rw [copyEntryFor_path] at h
  exact h

theorem mem_childNames (log : List LogRec) (p : List (List Char)) (nm : List Char) :
    nm ∈ childNames log p ↔
      ∃ q, q ∈ strictDescs log p ∧ (q.drop p.length).headD [] = nm := by
  rw [childNames, List.mem_dedup, List.mem_map]

theorem mem_descRels_struct (log : List LogRec) (p r : List (List Char)) :
    r ∈ descRels log p ↔
      ∃ q, q ∈ strictDescs log p ∧ r ∈ nePrefixes (q.drop p.length) := by
  rw [descRels, List.mem_dedup, List.mem_flatMap]
  constructor
  · rintro ⟨x, hx, hr⟩
    rcases List.mem_map.mp hx with ⟨q, hq, rfl⟩
    exact ⟨q, hq, hr⟩
  · rintro ⟨q, hq, hr⟩
    exact ⟨q.drop p.length, List.mem_map.mpr ⟨q, hq, rfl⟩, hr⟩

theorem explicitLive_append_of_puts (log es : List LogRec) (q : List (List Char))
    (hputs : ∀ e ∈ es, e.isPut = true)
    (h : explicitLive log q = true ∨ q ∈ es.map LogRec.pathOf) :
    explicitLive (log ++ es) q = true := by
  cases hl : lastOp es q with
  | some e =>
    rw [explicitLive_append_some log es q e hl]
    exact hputs e (lastOp_mem es q e hl).1
  | none =>
    rw [explicitLive_append_none log es q hl]
    rcases h with h | h
    · exact h
    · have hs := lastOp_isSome es q h
      rw [hl] at hs
      simp at hs

end Dat

/-- Claim C4: copying a source directory onto an existing destination
directory merges the trees: a file present only at the destination keeps its
content, a file present at both relative paths ends with the source's
content, and the destination's set of child names becomes the union of the
two directories' child names. -/
theorem claim_C4_copy_merge (a : Dat.Archive) (rawS rawD : String) (a' : Dat.Archive)
    (hs : Dat.nodeAt a.log (Dat.normPath rawS) = some .dir)
    (hd : Dat.nodeAt a.log (Dat.normPath rawD) = some .dir)
    (hc : Dat.copy a rawS rawD = .ok a') :
    (∀ r c, r ≠ [] → Dat.nodeAt a.log (Dat.normPath rawD ++ r) = some (.file c) →
      Dat.nodeAt a.log (Dat.normPath rawS ++ r) = none →
      Dat.nodeAt a'.log (Dat.normPath rawD ++ r) = some (.file c)) ∧
    (∀ r cs cd, Dat.nodeAt a.log (Dat.normPath rawS ++ r) = some (.file cs) →
      Dat.nodeAt a.log (Dat.normPath rawD ++ r) = some (.file cd) →
      Dat.nodeAt a'.log (Dat.normPath rawD ++ r) = some (.file cs)) ∧
    (∀ nm, nm ∈ Dat.childNames a'.log (Dat.normPath rawD) ↔
      nm ∈ Dat.childNames a.log (Dat.normPath rawD) ∨
      nm ∈ Dat.childNames a.log (Dat.normPath rawS)) := by
  rw [Dat.copy] at hc
  split at hc
  · exact absurd hc (by simp)
  · rw [hs] at hc
    have hc' : (Except.ok { a with
        log := a.log ++ Dat.copyEntries a.log (Dat.normPath rawS) (Dat.normPath rawD) }
        : Except Dat.DatError Dat.Archive) = .ok a' := hc
    injection hc' with ha'
    subst ha'
    refine ⟨?_, ?_, ?_⟩
    · intro r c hr0 hdst hsrc
      obtain ⟨q0, hl0⟩ := Dat.nodeAt_eq_file a.log (Dat.normPath rawD ++ r) c hdst
      have hnotmem : Dat.normPath rawD ++ r ∉
          (Dat.copyEntries a.log (Dat.normPath rawS) (Dat.normPath rawD)).map
            Dat.LogRec.pathOf := by
        rw [Dat.copyEntries_paths]
        intro hmem
        rcases List.mem_cons.mp hmem with heq | hmem'
        · have hle := congrArg List.length heq
          simp only [List.length_append] at hle
          exact hr0 (List.length_eq_zero.mp (by omega))
        · rcases List.mem_map.mp hmem' with ⟨r', hr', heq⟩
          have hrr : r' = r := List.append_cancel_left heq
          subst hrr
          rw [Dat.mem_descRels, hsrc] at hr'
          simp at hr'
      have hnone := Dat.lastOp_eq_none _ _ hnotmem
      have hsame := Dat.lastOp_append_of_none a.log _ (Dat.normPath rawD ++ r) hnone
      exact Dat.nodeAt_of_lastOp_file _ _ q0 c
        (fun h => hr0 (List.append_eq_nil.mp h).2) (by rw [hsame, hl0])
    · intro r cs cd hsrcf hdstf
      have hr0 : r ≠ [] := by
        rintro rfl
        rw [List.append_nil, hs] at hsrcf
        simp at hsrcf
      have hrmem : r ∈ Dat.descRels a.log (Dat.normPath rawS) := by
        rw [Dat.mem_descRels]
        exact ⟨hr0, by rw [hsrcf]; rfl⟩
      have hef : Dat.copyEntryFor a.log (Dat.normPath rawS) (Dat.normPath rawD) r
          = .putFile (Dat.normPath rawD ++ r) cs := by
        rw [Dat.copyEntryFor, hsrcf]
      have hlast := Dat.lastOp_copyEntries a.log (Dat.normPath rawS) (Dat.normPath rawD)
        r hrmem
      rw [hef] at hlast
      have hsome := Dat.lastOp_append_of_some a.log _ _ _ hlast
      exact Dat.nodeAt_of_lastOp_file _ _ _ cs
        (fun h => hr0 (List.append_eq_nil.mp h).2) hsome
    · intro nm
      constructor
      · intro h
        rw [Dat.mem_childNames] at h
        obtain ⟨q, hq, hhead⟩ := h
        rw [Dat.mem_strictDescs] at hq
        obtain ⟨hqmem, ⟨u, hu⟩, hlen, hlive⟩ := hq
        cases hcase : Dat.lastOp
            (Dat.copyEntries a.log (Dat.normPath rawS) (Dat.normPath rawD)) q with
        | some e =>
          obtain ⟨hemem, hep⟩ := Dat.lastOp_mem _ _ _ hcase
          rcases List.mem_cons.mp hemem with rfl | hemem'
          · have hdq : Dat.normPath rawD = q := hep
            subst hdq
            simp at hlen
          · rcases List.mem_map.mp hemem' with ⟨r', hr', rfl⟩
            rw [Dat.copyEntryFor_path] at hep
            subst hep
            rw [List.drop_left] at hhead
            rcases (Dat.mem_descRels_struct _ _ _).mp hr' with ⟨q0, hq0, hpref⟩
            rcases (Dat.mem_nePrefixes _ _).mp hpref with ⟨hr0', t, ht⟩
            refine Or.inr ((Dat.mem_childNames _ _ _).mpr ⟨q0, hq0, ?_⟩)
            rw [← ht] at *
            cases r' with
            | nil => exact absurd rfl hr0'
            | cons m0 mr =>
              simp only [List.headD_cons] at hhead
              rw [← ht]
              simp only [List.cons_append, List.headD_cons]
              exact hhead
        | none =>
          have hlive' : Dat.explicitLive a.log q = true := by
            rw [Dat.explicitLive_append_none _ _ _ hcase] at hlive
            exact hlive
          have hqmem' : q ∈ a.log.map Dat.LogRec.pathOf := by
            rw [List.map_append] at hqmem
            rcases List.mem_append.mp hqmem with hin | hin
            · exact hin
            · have hsm := Dat.lastOp_isSome _ _ hin
              rw [hcase] at hsm
              simp at hsm
          exact Or.inl ((Dat.mem_childNames _ _ _).mpr
            ⟨q, (Dat.mem_strictDescs _ _ _).mpr ⟨hqmem', ⟨u, hu⟩, hlen, hlive'⟩, hhead⟩)
      · intro h
        rcases h with h | h
        · rw [Dat.mem_childNames] at h ⊢
          obtain ⟨q, hq, hhead⟩ := h
          obtain ⟨hqmem, hpre, hlen, hlive⟩ := (Dat.mem_strictDescs _ _ _).mp hq
          refine ⟨q, (Dat.mem_strictDescs _ _ _).mpr ⟨?_, hpre, hlen, ?_⟩, hhead⟩
          · rw [List.map_append]
            exact List.mem_append.mpr (Or.inl hqmem)
          · exact Dat.explicitLive_append_of_puts _ _ _
              (Dat.copyEntries_isPut _ _ _) (Or.inl hlive)
        · rw [Dat.mem_childNames] at h ⊢
          obtain ⟨q, hq, hhead⟩ := h
          obtain ⟨hqmem, ⟨u, hu⟩, hlen, hlive⟩ := (Dat.mem_strictDescs _ _ _).mp hq
          subst hu
          rw [List.drop_left] at hhead
          cases u with
          | nil => simp at hlen
          | cons m0 mr =>
            simp only [List.headD_cons] at hhead
            subst hhead
            have hrmem : [m0] ∈ Dat.descRels a.log (Dat.normPath rawS) := by
              rw [Dat.mem_descRels_struct]
              refine ⟨Dat.normPath rawS ++ m0 :: mr, hq, ?_⟩
              rw [List.drop_left, Dat.nePrefixes]
              exact List.mem_cons.mpr (Or.inl rfl)
            have hemem : Dat.copyEntryFor a.log (Dat.normPath rawS) (Dat.normPath rawD) [m0]
                ∈ Dat.copyEntries a.log (Dat.normPath rawS) (Dat.normPath rawD) :=
              List.mem_cons.mpr (Or.inr (List.mem_map.mpr ⟨[m0], hrmem, rfl⟩))
            refine ⟨Dat.normPath rawD ++ [m0],
              (Dat.mem_strictDescs _ _ _).mpr ⟨?_, ⟨[m0], rfl⟩, ?_, ?_⟩, ?_⟩
            · rw [List.map_append]
              refine List.mem_append.mpr (Or.inr ?_)
              exact List.mem_map.mpr ⟨_, hemem, Dat.copyEntryFor_path _ _ _ _⟩
            · simp
            · apply Dat.explicitLive_append_of_puts _ _ _ (Dat.copyEntries_isPut _ _ _)
              right
              exact List.mem_map.mpr ⟨_, hemem, Dat.copyEntryFor_path _ _ _ _⟩
            · rw [List.drop_left]
              rfl

/-- Source tree for the copy-merge witness: directory t with file f holding
byte 1; directory d with file f holding byte 2 and file o holding byte 3. -/
def c4A : Dat.Archive :=
  { log := [Dat.LogRec.putDir [['t']],
            Dat.LogRec.putFile [['t'], ['f']] [1],
            Dat.LogRec.putDir [['d']],
            Dat.LogRec.putFile [['d'], ['f']] [2],
            Dat.LogRec.putFile [['d'], ['o']] [3]], isOwner := true }

/-- The archive produced by copying directory t onto directory d in c4A. -/
def c4A' : Dat.Archive :=
  { log := [Dat.LogRec.putDir [['t']],
            Dat.LogRec.putFile [['t'], ['f']] [1],
            Dat.LogRec.putDir [['d']],
            Dat.LogRec.putFile [['d'], ['f']] [2],
            Dat.LogRec.putFile [['d'], ['o']] [3],
            Dat.LogRec.putDir [['d']],
            Dat.LogRec.putFile [['d'], ['f']] [1]], isOwner := true }

/-- Claim C4 witness: in the concrete merge, the destination-only file o keeps
byte 3, the shared file f ends with the source's byte 1, and the child-name
union holds at name o. -/
theorem claim_C4_copy_merge_witness :
    Dat.copy c4A "t" "d" = .ok c4A' ∧
    Dat.nodeAt c4A'.log (Dat.normPath "d" ++ [['o']]) = some (.file [3]) ∧
    Dat.nodeAt c4A'.log (Dat.normPath "d" ++ [['f']]) = some (.file [1]) ∧
    (['o'] ∈ Dat.childNames c4A'.log (Dat.normPath "d") ↔
      ['o'] ∈ Dat.childNames c4A.log (Dat.normPath "d") ∨
      ['o'] ∈ Dat.childNames c4A.log (Dat.normPath "t")) := by
  have h := claim_C4_copy_merge c4A "t" "d" c4A' (by decide) (by decide) (by rfl)
  exact ⟨by rfl,
    h.1 [['o']] [3] (by decide) (by decide) (by decide),
    h.2.1 [['f']] [1] [2] (by decide) (by decide),
    h.2.2 ['o']⟩

namespace Dat

/-- An archive whose log paths are well-formed: every segment is nonempty and
free of separator characters (normPath only ever produces such paths). -/
def WfLog (a : Archive) : Prop :=
  ∀ rec ∈ a.log, ∀ seg ∈ rec.pathOf, seg ≠ [] ∧ ∀ ch ∈ seg, ch ≠ '/' ∧ ch ≠ '\\'

theorem joinSep_head (sep : Char) (s1 : List Char) (rest : List (List Char))
    (h : s1 ≠ []) : (joinSep sep (s1 :: rest)).head? = s1.head? := by
  cases rest with
  | nil => rfl
  | cons y ys =>
    rw [joinSep]
    cases s1 with
    | nil => exact absurd rfl h
    | cons c cs => rfl

end Dat

/-- Claim C8 counterexample: querying the subtree of directory a with the
windows-style path argument backslash-a yields the entry backslash-b
backslash-c, which carries a leading separator, refuting the claim that
recursive results never carry a forced leading separator. -/
def c8A : Dat.Archive :=
  { log := [Dat.LogRec.putDir [['a']],
            Dat.LogRec.putFile [['a'], ['b'], ['c']] [1]], isOwner := true }

/-- Claim C8 counterexample theorem: the backslash-style recursive listing of
an existing directory contains an entry whose first character is a
backslash separator. -/
theorem claim_C8_counterexample :
    Dat.nodeAt c8A.log (Dat.normPath "\\a") = some .dir ∧
    "\\b\\c" ∈ Dat.readdir c8A "\\a" true ∧
    ("\\b\\c").data.head? = some '\\' := by
  decide

/-- Claim C8 as amended: recursive readdir of an existing directory lists
exactly the nodes of the subtree, each rendered in the separator style of the
caller's path argument; forward-slash queries yield entries with no leading
separator while backslash queries yield entries with a leading backslash. -/
theorem claim_C8_readdir_recursive (a : Dat.Archive) (raw : String)
    (hdir : Dat.nodeAt a.log (Dat.normPath raw) = some .dir) :
    (∀ r, r ≠ [] → (Dat.nodeAt a.log (Dat.normPath raw ++ r)).isSome = true →
      Dat.renderRel (raw.data.contains '\\') r ∈ Dat.readdir a raw true) ∧
    (∀ x, x ∈ Dat.readdir a raw true → ∃ r, r ≠ [] ∧
      (Dat.nodeAt a.log (Dat.normPath raw ++ r)).isSome = true ∧
      x = Dat.renderRel (raw.data.contains '\\') r) ∧
    (Dat.WfLog a → ∀ x, x ∈ Dat.readdir a raw true →
      (raw.data.contains '\\' = true → x.data.head? = some '\\') ∧
      (raw.data.contains '\\' = false →
        ∀ ch, x.data.head? = some ch → ch ≠ '/' ∧ ch ≠ '\\')) := by
  refine ⟨?_, ?_, ?_⟩
  · intro r hr0 hsome
    rw [Dat.readdir, if_pos rfl]
    exact List.mem_map.mpr ⟨r, (Dat.mem_descRels _ _ _).mpr ⟨hr0, hsome⟩, rfl⟩
  · intro x hx
    rw [Dat.readdir, if_pos rfl] at hx
    rcases List.mem_map.mp hx with ⟨r, hr, rfl⟩
    rcases (Dat.mem_descRels _ _ _).mp hr with ⟨hr0, hsome⟩
    exact ⟨r, hr0, hsome, rfl⟩
  · intro hwf x hx
    rw [Dat.readdir, if_pos rfl] at hx
    rcases List.mem_map.mp hx with ⟨r, hr, rfl⟩
    rcases (Dat.mem_descRels_struct _ _ _).mp hr with ⟨q0, hq0, hpref⟩
    rcases (Dat.mem_nePrefixes _ _).mp hpref with ⟨hr0, t, ht⟩
    rcases (Dat.mem_strictDescs _ _ _).mp hq0 with ⟨hq0mem, hq0pre, hq0len, hq0live⟩
    rcases List.mem_map.mp hq0mem with ⟨rec, hrec, hrecp⟩
    cases r with
    | nil => exact absurd rfl hr0
    | cons m0 mr =>
      have hm0q : m0 ∈ q0 := by
        have h1 : m0 ∈ q0.drop (Dat.normPath raw).length := by
          rw [← ht]
          simp
        exact List.mem_of_mem_drop h1
      have hm0 : m0 ≠ [] ∧ ∀ ch ∈ m0, ch ≠ '/' ∧ ch ≠ '\\' := by
        have := hwf rec hrec m0 (by rw [hrecp]; exact hm0q)
        exact this
      constructor
      · intro hwin
        rw [Dat.renderRel, if_pos hwin]
        rfl
      · intro hwin ch hch
        rw [Dat.renderRel, if_neg (by rw [hwin]; simp)] at hch
        have hh : (Dat.joinSep '/' (m0 :: mr)).head? = m0.head? :=
          Dat.joinSep_head '/' m0 mr hm0.1
        have hch' : m0.head? = some ch := by
          rw [← hh]
          exact hch
        have hchm : ch ∈ m0 := List.mem_of_mem_head? (by rw [hch']; rfl)
        exact hm0.2 ch hchm

/-- Claim C8 witness: in the concrete archive, the backslash-style query
lists the nested entry with backslash joins and a leading backslash, and the
forward-slash-style listing consists of rendered subtree entries. -/
theorem claim_C8_readdir_recursive_witness :
    Dat.renderRel (("\\a").data.contains '\\') [['b'], ['c']]
      ∈ Dat.readdir c8A "\\a" true ∧
    ("\\b\\c").data.head? = some '\\' ∧
    (∃ r, r ≠ [] ∧ (Dat.nodeAt c8A.log (Dat.normPath "a" ++ r)).isSome = true ∧
      "b/c" = Dat.renderRel (("a").data.contains '\\') r) :=
  ⟨(claim_C8_readdir_recursive c8A "\\a" (by decide)).1 [['b'], ['c']]
      (by decide) (by decide),
   ((claim_C8_readdir_recursive c8A "\\a" (by decide)).2.2
      (by unfold Dat.WfLog; decide) "\\b\\c" (by decide)).1 (by decide),
   (claim_C8_readdir_recursive c8A "a" (by decide)).2.1 "b/c" (by decide)⟩

namespace Dat

/-! ## WatchHub

Modelled from the spec: createFileActivityStream returns a subscription
filtered by glob patterns; every mutation producing a new entry is converted
to a changed notification carrying the absolute slash-rendered path and is
delivered to every open subscription created no later than the mutation whose
patterns match; while no listener is attached the subscription retains the
most recent unconsumed notification and a listener drains it on attachment
(the test suite pins that exactly the last pre-listener event fires). -/

/-- A change notification: the version of the entry that produced it and the
absolute slash-rendered path. -/
structure Notif where
  version : Nat
  path : String
deriving DecidableEq

/-- A subscription: glob patterns (empty set matches everything), the version
at creation, whether a listener is attached, the retained pre-listener
notification, the notifications delivered to the listener in order, and the
open flag. -/
structure Subscr where
  patterns : List (List Char)
  createdAt : Nat
  listening : Bool
  buffer : Option Notif
  delivered : List Notif
  isOpen : Bool
deriving DecidableEq

/-- Fuelled shell-glob matcher: a star matches zero or more non-separator
characters; other characters match literally. -/
def globMatchF : Nat → List Char → List Char → Bool
  | 0, _, _ => false
  | _ + 1, [], [] => true
  | _ + 1, [], _ :: _ => false
  | fuel + 1, '*' :: ps, cs =>
    globMatchF fuel ps cs ||
      (match cs with
       | [] => false
       | c :: cs' => !(isSep c) && globMatchF fuel ('*' :: ps) cs')
  | _ + 1, _ :: _, [] => false
  | fuel + 1, p :: ps, c :: cs => decide (p = c) && globMatchF fuel ps cs

/-- Shell-glob matching with sufficient fuel. -/
def globMatch (pat str : List Char) : Bool :=
  globMatchF (pat.length + str.length + 1) pat str

/-- Modelled from the spec: a path matches a subscription when the pattern
set is empty or some glob matches it. -/
def matchesSub (pats : List (List Char)) (p : String) : Bool :=
  pats.isEmpty || pats.any (fun pat => globMatch pat p.data)

/-- The path carried by the changed notification of a mutation invoked with
the given raw path argument. -/
def eventPath (raw : String) : String := renderAbs (normPath raw)

/-- A fresh subscription created at version v. -/
def newSub (pats : List String) (v : Nat) : Subscr :=
  { patterns := pats.map String.data, createdAt := v, listening := false,
    buffer := none, delivered := [], isOpen := true }

/-- Attaching a listener drains the retained notification. -/
def attachSub (s : Subscr) : Subscr :=
  { s with listening := true, delivered := s.delivered ++ s.buffer.toList, buffer := none }

/-- Closing stops delivery and releases the buffer. -/
def closeSub (s : Subscr) : Subscr := { s with isOpen := false, buffer := none }

/-- Dispatch one notification to one subscription: open subscriptions created
no later than the mutation whose patterns match receive it; with a listener
it is appended to the delivered list, otherwise it replaces the retained
notification (last-event-wins, as the test suite pins). -/
def notifyOne (n : Notif) (s : Subscr) : Subscr :=
  if s.isOpen && matchesSub s.patterns n.path && decide (s.createdAt ≤ n.version) then
    if s.listening then { s with delivered := s.delivered ++ [n] }
    else { s with buffer := some n }
  else s

/-- The world: one archive plus its live subscriptions. -/
structure World where
  archive : Archive
  subs : List Subscr
deriving DecidableEq

/-- The operations of the watch scenario: stream creation, listener
attachment, stream closing, and the single-entry mutations. -/
inductive Action
  | create (pats : List String)
  | attach (i : Nat)
  | closeS (i : Nat)
  | write (raw : String) (data : FileData) (enc : Option Encoding)
  | mkdirA (raw : String)
  | unlinkA (raw : String)

/-- Replace the subscription at an index. -/
def updateAt : Nat → (Subscr → Subscr) → List Subscr → List Subscr
  | _, _, [] => []
  | 0, f, s :: rest => f s :: rest
  | j + 1, f, s :: rest => s :: updateAt j f rest

/-- Apply a mutation result: on success install the new archive and dispatch
the notification of its single new entry to every subscription; on failure
the world is unchanged. -/
def applyMut (w : World) (res : Except DatError Archive) (p : List (List Char)) : World :=
  match res with
  | .ok a' =>
    { archive := a',
      subs := w.subs.map (notifyOne { version := ver w.archive + 1, path := renderAbs p }) }
  | .error _ => w

/-- One step of the watch scenario. -/
def step (w : World) : Action → World
  | .create pats => { w with subs := w.subs ++ [newSub pats (ver w.archive)] }
  | .attach i => { w with subs := updateAt i attachSub w.subs }
  | .closeS i => { w with subs := updateAt i closeSub w.subs }
  | .write raw data enc => applyMut w (writeFile w.archive raw data enc) (normPath raw)
  | .mkdirA raw => applyMut w (mkdir w.archive raw) (normPath raw)
  | .unlinkA raw => applyMut w (unlink w.archive raw) (normPath raw)

/-- Run a sequence of actions. -/
def run (w : World) (acts : List Action) : World := acts.foldl step w

/-- A well-formed notification held by a subscription in a world at version v:
it stems from a mutation strictly after the subscription's creation, not
after the present, and its path is absolute. -/
def WfNotif (v c : Nat) (n : Notif) : Prop :=
  c < n.version ∧ n.version ≤ v ∧ n.path.data.head? = some '/'

/-- World invariant: every subscription was created no later than the current
version and every notification it holds is well formed. -/
def WfW (w : World) : Prop :=
  ∀ s ∈ w.subs, s.createdAt ≤ ver w.archive ∧
    (∀ n ∈ s.delivered, WfNotif (ver w.archive) s.createdAt n) ∧
    (∀ n ∈ s.buffer.toList, WfNotif (ver w.archive) s.createdAt n)

theorem WfNotif.mono {v v' c : Nat} {n : Notif} (h : WfNotif v c n) (hv : v ≤ v') :
    WfNotif v' c n :=
  ⟨h.1, le_trans h.2.1 hv, h.2.2⟩

theorem writeFile_ok_log (a : Archive) (raw : String) (data : FileData)
    (enc : Option Encoding) (a' : Archive) (h : writeFile a raw data enc = .ok a') :
    a'.log = a.log ++ [LogRec.putFile (normPath raw) (encodeData data enc)] := by
  rw [writeFile] at h
  split at h
  · exact absurd h (by simp)
  · split at h
    · injection h with h
      subst h
      rfl
    · exact absurd h (by simp)

theorem mkdir_ok_log (a : Archive) (raw : String) (a' : Archive)
    (h : mkdir a raw = .ok a') :
    a'.log = a.log ++ [LogRec.putDir (normPath raw)] := by
  rw [mkdir] at h
  split at h
  · exact absurd h (by simp)
  · split at h
    · split at h
      · exact absurd h (by simp)
      · injection h with h
        subst h
        rfl
    · exact absurd h (by simp)

theorem unlink_ok_log (a : Archive) (raw : String) (a' : Archive)
    (h : unlink a raw = .ok a') :
    a'.log = a.log ++ [LogRec.del (normPath raw)] := by
  rw [unlink] at h
  split at h
  · exact absurd h (by simp)
  · split at h
    · rename_i c heq
      injection h with h
      subst h
      rfl
    · exact absurd h (by simp)

theorem mem_updateAt (i : Nat) (f : Subscr → Subscr) (l : List Subscr) (s : Subscr)
    (hs : s ∈ updateAt i f l) : s ∈ l ∨ ∃ s' ∈ l, s = f s' := by
  induction l generalizing i with
  | nil => simp [updateAt] at hs
  | cons x rest ih =>
    cases i with
    | zero =>
      rw [updateAt] at hs
      rcases List.mem_cons.mp hs with rfl | hs'
      · exact Or.inr ⟨x, by simp, rfl⟩
      · exact Or.inl (by simp [hs'])
    | succ j =>
      rw [updateAt] at hs
      rcases List.mem_cons.mp hs with rfl | hs'
      · exact Or.inl (by simp)
      · rcases ih j hs' with h | ⟨s', hs'', rfl⟩
        · exact Or.inl (by simp [h])
        · exact Or.inr ⟨s', by simp [hs''], rfl⟩

theorem updateAt_getElem (i : Nat) (f : Subscr → Subscr) (l : List Subscr) :
    (updateAt i f l)[i]? = (l[i]?).map f := by
  induction l generalizing i with
  | nil => simp [updateAt]
  | cons x rest ih =>
    cases i with
    | zero => simp [updateAt]
    | succ j => simpa [updateAt] using ih j

end Dat

namespace Dat

/-- Dispatching a fresh notification of the next version preserves the
subscription part of the invariant. -/
theorem wfw_notify (v : Nat) (s : Subscr) (n : Notif)
    (hcr : s.createdAt ≤ v)
    (hdel : ∀ m ∈ s.delivered, WfNotif v s.createdAt m)
    (hbuf : ∀ m ∈ s.buffer.toList, WfNotif v s.createdAt m)
    (hn : n.version = v + 1) (hpath : n.path.data.head? = some '/') :
    (notifyOne n s).createdAt ≤ v + 1 ∧
      (∀ m ∈ (notifyOne n s).delivered, WfNotif (v + 1) (notifyOne n s).createdAt m) ∧
      (∀ m ∈ (notifyOne n s).buffer.toList, WfNotif (v + 1) (notifyOne n s).createdAt m) := by
  have hwfn : WfNotif (v + 1) s.createdAt n := ⟨by omega, by omega, hpath⟩
  rw [notifyOne]
  by_cases hcond :
      (s.isOpen && matchesSub s.patterns n.path && decide (s.createdAt ≤ n.version)) = true
  · rw [if_pos hcond]
    by_cases hl : s.listening = true
    · rw [if_pos hl]
      refine ⟨by show s.createdAt ≤ v + 1; omega, ?_, ?_⟩
      · intro m hm
        rcases List.mem_append.mp hm with hm | hm
        · exact (hdel m hm).mono (Nat.le_succ v)
        · rcases List.mem_singleton.mp hm with rfl
          exact hwfn
      · intro m hm
        exact (hbuf m hm).mono (Nat.le_succ v)
    · rw [if_neg hl]
      refine ⟨by show s.createdAt ≤ v + 1; omega, ?_, ?_⟩
      · intro m hm
        exact (hdel m hm).mono (Nat.le_succ v)
      · intro m hm
        rcases List.mem_singleton.mp (by simpa using hm) with rfl
        exact hwfn
  · rw [if_neg hcond]
    refine ⟨by show s.createdAt ≤ v + 1; omega, ?_, ?_⟩
    · intro m hm
      exact (hdel m hm).mono (Nat.le_succ v)
    · intro m hm
      exact (hbuf m hm).mono (Nat.le_succ v)

/-- Dispatching the notification of a successful single-entry mutation
preserves the world invariant. -/
theorem wfw_applyMut (w : World) (a' : Archive) (p : List (List Char)) (h : WfW w)
    (hver : a'.log.length = w.archive.log.length + 1) :
    WfW (applyMut w (.ok a') p) := by
  intro s hs
  replace hs : s ∈ w.subs.map
      (notifyOne { version := ver w.archive + 1, path := renderAbs p }) := hs
  rcases List.mem_map.mp hs with ⟨s0, hs0, rfl⟩
  obtain ⟨hcr, hdel, hbuf⟩ := h s0 hs0
  have hmain := wfw_notify (ver w.archive) s0
    { version := ver w.archive + 1, path := renderAbs p } hcr hdel hbuf rfl rfl
  have hva : ver (applyMut w (Except.ok a') p).archive = ver w.archive + 1 := by
    show ver a' = ver w.archive + 1
    rw [ver, hver]
    rfl
  refine ⟨?_, ?_, ?_⟩
  · rw [hva]
    exact hmain.1
  · intro m hm
    rw [hva]
    exact hmain.2.1 m hm
  · intro m hm
    rw [hva]
    exact hmain.2.2 m hm

/-- One step preserves the world invariant. -/
theorem wfw_step (w : World) (act : Action) (h : WfW w) : WfW (step w act) := by
  cases act with
  | create pats =>
    intro s hs
    rcases List.mem_append.mp hs with hs | hs
    · exact h s hs
    · rcases List.mem_singleton.mp hs with rfl
      refine ⟨le_refl _, ?_, ?_⟩
      · intro n hn
        simp [newSub] at hn
      · intro n hn
        simp [newSub] at hn
  | attach i =>
    intro s hs
    rcases mem_updateAt i attachSub w.subs s hs with hs' | ⟨s', hs', rfl⟩
    · exact h s hs'
    · obtain ⟨hcr, hdel, hbuf⟩ := h s' hs'
      refine ⟨hcr, ?_, ?_⟩
      · intro n hn
        rcases List.mem_append.mp hn with hn | hn
        · exact hdel n hn
        · exact hbuf n hn
      · intro n hn
        simp [attachSub] at hn
  | closeS i =>
    intro s hs
    rcases mem_updateAt i closeSub w.subs s hs with hs' | ⟨s', hs', rfl⟩
    · exact h s hs'
    · obtain ⟨hcr, hdel, hbuf⟩ := h s' hs'
      refine ⟨hcr, hdel, ?_⟩
      intro n hn
      simp [closeSub] at hn
  | write raw data enc =>
    show WfW (applyMut w (writeFile w.archive raw data enc) (normPath raw))
    cases hres : writeFile w.archive raw data enc with
    | error e => exact h
    | ok a' =>
      refine wfw_applyMut w a' (normPath raw) h ?_
      rw [writeFile_ok_log _ _ _ _ _ hres, List.length_append]
      rfl
  | mkdirA raw =>
    show WfW (applyMut w (mkdir w.archive raw) (normPath raw))
    cases hres : mkdir w.archive raw with
    | error e => exact h
    | ok a' =>
      refine wfw_applyMut w a' (normPath raw) h ?_
      rw [mkdir_ok_log _ _ _ hres, List.length_append]
      rfl
  | unlinkA raw =>
    show WfW (applyMut w (unlink w.archive raw) (normPath raw))
    cases hres : unlink w.archive raw with
    | error e => exact h
    | ok a' =>
      refine wfw_applyMut w a' (normPath raw) h ?_
      rw [unlink_ok_log _ _ _ hres, List.length_append]
      rfl

/-- Running any action sequence preserves the world invariant. -/
theorem wfw_run (w : World) (acts : List Action) (h : WfW w) : WfW (run w acts) := by
  induction acts generalizing w with
  | nil => exact h
  | cons a rest ih =>
    rw [run, List.foldl_cons]
    exact ih (step w a) (wfw_step w a h)

end Dat

namespace Dat

theorem notifyOne_buffer (s : Subscr) (n : Notif) (ho : s.isOpen = true)
    (hl : s.listening = false) (hm : matchesSub s.patterns n.path = true)
    (hc : s.createdAt ≤ n.version) :
    notifyOne n s = { s with buffer := some n } := by
  have hcond : (s.isOpen && matchesSub s.patterns n.path
      && decide (s.createdAt ≤ n.version)) = true := by
    rw [ho, hm, decide_eq_true hc]
    rfl
  rw [notifyOne, if_pos hcond, if_neg (by rw [hl]; simp)]

theorem notifyOne_deliver (s : Subscr) (n : Notif) (ho : s.isOpen = true)
    (hl : s.listening = true) (hm : matchesSub s.patterns n.path = true)
    (hc : s.createdAt ≤ n.version) :
    notifyOne n s = { s with delivered := s.delivered ++ [n] } := by
  have hcond : (s.isOpen && matchesSub s.patterns n.path
      && decide (s.createdAt ≤ n.version)) = true := by
    rw [ho, hm, decide_eq_true hc]
    rfl
  rw [notifyOne, if_pos hcond, if_pos hl]

theorem notifyOne_skip (s : Subscr) (n : Notif)
    (hm : matchesSub s.patterns n.path = false) :
    notifyOne n s = s := by
  rw [notifyOne, if_neg]
  rw [hm]
  simp

end Dat

/-- Claim C10: every changed notification carries a path with a leading
forward slash: the event path of any raw mutation argument is slash-prefixed,
the test's concrete case writeFile("watch.txt") yields "/watch.txt", and in
any run from a well-formed world every delivered notification's path starts
with a forward slash. -/
theorem claim_C10_event_leading_slash :
    (∀ raw : String, ∃ t, Dat.eventPath raw = String.mk ('/' :: t)) ∧
    Dat.eventPath "watch.txt" = "/watch.txt" ∧
    (∀ w acts s n, Dat.WfW w → s ∈ (Dat.run w acts).subs → n ∈ s.delivered →
      n.path.data.head? = some '/') := by
  refine ⟨?_, ?_, ?_⟩
  · intro raw
    exact ⟨Dat.joinSep '/' (Dat.normPath raw), rfl⟩
  · decide
  · intro w acts s n hwf hs hn
    exact ((Dat.wfw_run w acts hwf s hs).2.1 n hn).2.2

/-- Empty world used by the watch witnesses: fresh owner archive, no
subscriptions. -/
def c10W : Dat.World := { archive := { log := [], isOwner := true }, subs := [] }

/-- Watch scenario of the C10 witness: create a stream, write watch.txt with
no leading slash, attach the listener. -/
def c10Acts : List Dat.Action :=
  [Dat.Action.create [], Dat.Action.write "watch.txt" (Dat.FileData.str [97]) none,
   Dat.Action.attach 0]

/-- The subscription state after the C10 witness run. -/
def c10Sub : Dat.Subscr :=
  { patterns := [], createdAt := 0, listening := true, buffer := none,
    delivered := [⟨1, "/watch.txt"⟩], isOpen := true }

/-- Claim C10 witness: in the concrete run the delivered notification for the
slashless writeFile("watch.txt") carries path "/watch.txt", with a leading
forward slash. -/
theorem claim_C10_event_leading_slash_witness :
    Dat.WfW c10W ∧ c10Sub ∈ (Dat.run c10W c10Acts).subs ∧
    (⟨1, "/watch.txt"⟩ : Dat.Notif) ∈ c10Sub.delivered ∧
    (⟨1, "/watch.txt"⟩ : Dat.Notif).path.data.head? = some '/' :=
  ⟨fun s hs => absurd hs (List.not_mem_nil s), by decide, by decide,
   claim_C10_event_leading_slash.2.2 c10W c10Acts c10Sub ⟨1, "/watch.txt"⟩
     (fun s hs => absurd hs (List.not_mem_nil s)) (by decide) (by decide)⟩

/-- Watch scenario of the C6 counterexample: create a stream, write
dont_watch.txt, write watch.txt, then attach the listener. -/
def c6Acts : List Dat.Action :=
  [Dat.Action.create [], Dat.Action.write "dont_watch.txt" (Dat.FileData.str [98]) none,
   Dat.Action.write "watch.txt" (Dat.FileData.str [97]) none, Dat.Action.attach 0]

/-- Claim C6 counterexample: both mutations happen after the subscription
exists and before the listener attaches, both match the empty pattern set,
yet after attachment only the last one ("/watch.txt", version 2) has been
delivered; the earlier mutation ("/dont_watch.txt", version 1) is never
delivered, refuting the claim that every such mutation is buffered and
delivered. -/
theorem claim_C6_counterexample :
    (Dat.run c10W c6Acts).archive.log.length = 2 ∧
    Dat.matchesSub [] (Dat.eventPath "dont_watch.txt") = true ∧
    (Dat.run c10W c6Acts).subs.map Dat.Subscr.delivered = [[⟨2, "/watch.txt"⟩]] ∧
    ((⟨1, "/dont_watch.txt"⟩ : Dat.Notif) ∈
        ((Dat.run c10W c6Acts).subs.map Dat.Subscr.delivered).flatten → False) := by
  decide

/-- Claim C6 as amended: a mutation that occurred before a subscription's
creation is never delivered to it, and of the mutations occurring after the
subscription exists but before a listener attaches, the most recent one is
retained and delivered once the listener attaches (earlier ones are
dropped). -/
theorem claim_C6_watch_buffering :
    (∀ w acts s n, Dat.WfW w → s ∈ (Dat.run w acts).subs → n ∈ s.delivered →
      s.createdAt < n.version) ∧
    (∀ (w : Dat.World) (pats : List String) (raw1 : String) (d1 : Dat.FileData)
        (e1 : Option Dat.Encoding) (raw2 : String) (d2 : Dat.FileData)
        (e2 : Option Dat.Encoding) (a1 a2 : Dat.Archive),
      Dat.writeFile w.archive raw1 d1 e1 = .ok a1 →
      Dat.matchesSub (pats.map String.data) (Dat.eventPath raw1) = true →
      Dat.writeFile a1 raw2 d2 e2 = .ok a2 →
      Dat.matchesSub (pats.map String.data) (Dat.eventPath raw2) = true →
      ((Dat.run w [.create pats, .write raw1 d1 e1, .write raw2 d2 e2,
          .attach w.subs.length]).subs)[w.subs.length]? = some
        { patterns := pats.map String.data,
          createdAt := Dat.ver w.archive,
          listening := true,
          buffer := none,
          delivered := [⟨Dat.ver w.archive + 2, Dat.eventPath raw2⟩],
          isOpen := true }) := by
  constructor
  · intro w acts s n hwf hs hn
    exact ((Dat.wfw_run w acts hwf s hs).2.1 n hn).1
  · intro w pats raw1 d1 e1 raw2 d2 e2 a1 a2 hw1 hm1 hw2 hm2
    have hva1 : Dat.ver a1 = Dat.ver w.archive + 1 := by
      rw [Dat.ver, Dat.writeFile_ok_log _ _ _ _ _ hw1, List.length_append]
      rfl
    have h1 : (Dat.step w (.create pats)).subs[w.subs.length]?
        = some (Dat.newSub pats (Dat.ver w.archive)) := by
      show (w.subs ++ [Dat.newSub pats (Dat.ver w.archive)])[w.subs.length]? = _
      exact List.getElem?_concat_length _ _
    have h2w : Dat.step (Dat.step w (.create pats)) (.write raw1 d1 e1)
        = { archive := a1,
            subs := (Dat.step w (.create pats)).subs.map
              (Dat.notifyOne ⟨Dat.ver w.archive + 1, Dat.eventPath raw1⟩) } := by
      show Dat.applyMut (Dat.step w (.create pats))
        (Dat.writeFile w.archive raw1 d1 e1) (Dat.normPath raw1) = _
      rw [hw1]
      rfl
    have h3w : Dat.step
        { archive := a1,
          subs := (Dat.step w (.create pats)).subs.map
            (Dat.notifyOne ⟨Dat.ver w.archive + 1, Dat.eventPath raw1⟩) }
        (.write raw2 d2 e2)
        = { archive := a2,
            subs := ((Dat.step w (.create pats)).subs.map
              (Dat.notifyOne ⟨Dat.ver w.archive + 1, Dat.eventPath raw1⟩)).map
                (Dat.notifyOne ⟨Dat.ver a1 + 1, Dat.eventPath raw2⟩) } := by
      show Dat.applyMut _ (Dat.writeFile a1 raw2 d2 e2) (Dat.normPath raw2) = _
      rw [hw2]
      rfl
    show (Dat.step (Dat.step (Dat.step (Dat.step w (.create pats)) (.write raw1 d1 e1)) (.write raw2 d2 e2)) (.attach w.subs.length)).subs[w.subs.length]? = _
    rw [h2w, h3w]
    show (Dat.updateAt w.subs.length Dat.attachSub _)[w.subs.length]? = _
    rw [Dat.updateAt_getElem, List.getElem?_map, List.getElem?_map, h1]
    simp only [Option.map_some']
    rw [Dat.notifyOne_buffer (Dat.newSub pats (Dat.ver w.archive))
      ⟨Dat.ver w.archive + 1, Dat.eventPath raw1⟩ rfl rfl hm1 (Nat.le_succ _)]
    rw [Dat.notifyOne_buffer _ ⟨Dat.ver a1 + 1, Dat.eventPath raw2⟩ rfl rfl hm2
      (by show Dat.ver w.archive ≤ Dat.ver a1 + 1; rw [hva1]; omega)]
    rw [hva1]
    rfl

/-- Claim C6 witness instantiation for the gap schema: the two archives the
consecutive writes produce. -/
def c6A1 : Dat.Archive :=
  { log := [Dat.LogRec.putFile (Dat.normPath "dont_watch.txt") [98]], isOwner := true }

/-- The archive after the second witness write. -/
def c6A2 : Dat.Archive :=
  { log := [Dat.LogRec.putFile (Dat.normPath "dont_watch.txt") [98],
            Dat.LogRec.putFile (Dat.normPath "watch.txt") [97]], isOwner := true }

/-- Claim C6 witness: in the concrete run the subscription created on the
empty world ends with exactly the second write's notification delivered, and
in the same run every delivered notification postdates the creation. -/
theorem claim_C6_watch_buffering_witness :
    ((Dat.run c10W [.create [], .write "dont_watch.txt" (Dat.FileData.str [98]) none,
        .write "watch.txt" (Dat.FileData.str [97]) none,
        .attach c10W.subs.length]).subs)[c10W.subs.length]? = some
      { patterns := ([] : List String).map String.data,
        createdAt := Dat.ver c10W.archive,
        listening := true,
        buffer := none,
        delivered := [⟨Dat.ver c10W.archive + 2, Dat.eventPath "watch.txt"⟩],
        isOpen := true } ∧
    (0 : Nat) < 1 ∧ c10Sub.createdAt < (1 : Nat) :=
  ⟨claim_C6_watch_buffering.2 c10W [] "dont_watch.txt" (Dat.FileData.str [98]) none
      "watch.txt" (Dat.FileData.str [97]) none c6A1 c6A2
      (by rfl) (by decide) (by rfl) (by decide),
   by decide,
   claim_C6_watch_buffering.1 c10W c10Acts c10Sub ⟨1, "/watch.txt"⟩
     (fun s hs => absurd hs (List.not_mem_nil s)) (by decide) (by decide)⟩

/-- Claim C9: with pattern "/*watch.txt" the glob star matches zero or more
characters within a segment: the pattern matches "/watch.txt" and
"/dont_watch.txt" but not "/watch2.txt", and accordingly a listening
subscription with that pattern receives a changed notification for writes to
watch.txt and dont_watch.txt but not for writes to watch2.txt. -/
theorem claim_C9_glob_star_delivery :
    Dat.globMatch ("/*watch.txt").data ("/watch.txt").data = true ∧
    Dat.globMatch ("/*watch.txt").data ("/dont_watch.txt").data = true ∧
    Dat.globMatch ("/*watch.txt").data ("/watch2.txt").data = false ∧
    (∀ (w : Dat.World) (i : Nat) (s : Dat.Subscr) (d : Dat.FileData)
        (e : Option Dat.Encoding) (a' : Dat.Archive),
      w.subs[i]? = some s → s.isOpen = true → s.listening = true →
      s.patterns = [("/*watch.txt").data] → s.createdAt ≤ Dat.ver w.archive →
      Dat.writeFile w.archive "watch.txt" d e = .ok a' →
      ((Dat.step w (.write "watch.txt" d e)).subs)[i]? = some
        { s with delivered := s.delivered
            ++ [⟨Dat.ver w.archive + 1, "/watch.txt"⟩] }) ∧
    (∀ (w : Dat.World) (i : Nat) (s : Dat.Subscr) (d : Dat.FileData)
        (e : Option Dat.Encoding) (a' : Dat.Archive),
      w.subs[i]? = some s → s.isOpen = true → s.listening = true →
      s.patterns = [("/*watch.txt").data] → s.createdAt ≤ Dat.ver w.archive →
      Dat.writeFile w.archive "dont_watch.txt" d e = .ok a' →
      ((Dat.step w (.write "dont_watch.txt" d e)).subs)[i]? = some
        { s with delivered := s.delivered
            ++ [⟨Dat.ver w.archive + 1, "/dont_watch.txt"⟩] }) ∧
    (∀ (w : Dat.World) (i : Nat) (s : Dat.Subscr) (d : Dat.FileData)
        (e : Option Dat.Encoding) (a' : Dat.Archive),
      w.subs[i]? = some s →
      s.patterns = [("/*watch.txt").data] →
      Dat.writeFile w.archive "watch2.txt" d e = .ok a' →
      ((Dat.step w (.write "watch2.txt" d e)).subs)[i]? = some s) := by
  refine ⟨by decide, by decide, by decide, ?_, ?_, ?_⟩
  · intro w i s d e a' hs ho hl hp hc hw
    show ((Dat.applyMut w (Dat.writeFile w.archive "watch.txt" d e)
      (Dat.normPath "watch.txt")).subs)[i]? = _
    rw [hw]
    show (w.subs.map (Dat.notifyOne
      ⟨Dat.ver w.archive + 1, Dat.renderAbs (Dat.normPath "watch.txt")⟩))[i]? = _
    rw [List.getElem?_map, hs, Option.map_some']
    rw [Dat.notifyOne_deliver s _ ho hl
      (by
        rw [hp]
        show Dat.matchesSub [("/*watch.txt").data]
          (Dat.renderAbs (Dat.normPath "watch.txt")) = true
        decide)
      (by show s.createdAt ≤ Dat.ver w.archive + 1; omega)]
    rfl
  · intro w i s d e a' hs ho hl hp hc hw
    show ((Dat.applyMut w (Dat.writeFile w.archive "dont_watch.txt" d e)
      (Dat.normPath "dont_watch.txt")).subs)[i]? = _
    rw [hw]
    show (w.subs.map (Dat.notifyOne
      ⟨Dat.ver w.archive + 1, Dat.renderAbs (Dat.normPath "dont_watch.txt")⟩))[i]? = _
    rw [List.getElem?_map, hs, Option.map_some']
    rw [Dat.notifyOne_deliver s _ ho hl
      (by
        rw [hp]
        show Dat.matchesSub [("/*watch.txt").data]
          (Dat.renderAbs (Dat.normPath "dont_watch.txt")) = true
        decide)
      (by show s.createdAt ≤ Dat.ver w.archive + 1; omega)]
    rfl
  · intro w i s d e a' hs hp hw
    show ((Dat.applyMut w (Dat.writeFile w.archive "watch2.txt" d e)
      (Dat.normPath "watch2.txt")).subs)[i]? = _
    rw [hw]
    show (w.subs.map (Dat.notifyOne
      ⟨Dat.ver w.archive + 1, Dat.renderAbs (Dat.normPath "watch2.txt")⟩))[i]? = _
    rw [List.getElem?_map, hs, Option.map_some']
    rw [Dat.notifyOne_skip s _
      (by
        rw [hp]
        show Dat.matchesSub [("/*watch.txt").data]
          (Dat.renderAbs (Dat.normPath "watch2.txt")) = false
        decide)]

/-- The listening subscription of the C9 witness, filtering on the glob
pattern "/*watch.txt". -/
def c9Sub : Dat.Subscr :=
  { patterns := [("/*watch.txt").data], createdAt := 0, listening := true,
    buffer := none, delivered := [], isOpen := true }

/-- The world of the C9 witness: a fresh owner archive with the glob
subscription attached. -/
def c9W : Dat.World := { archive := { log := [], isOwner := true }, subs := [c9Sub] }

/-- The archive after the C9 witness write of watch.txt. -/
def c9A1 : Dat.Archive :=
  { log := [Dat.LogRec.putFile (Dat.normPath "watch.txt") [97]], isOwner := true }

/-- The archive after the C9 witness write of dont_watch.txt. -/
def c9A2 : Dat.Archive :=
  { log := [Dat.LogRec.putFile (Dat.normPath "dont_watch.txt") [98]], isOwner := true }

/-- The archive after the C9 witness write of watch2.txt. -/
def c9A3 : Dat.Archive :=
  { log := [Dat.LogRec.putFile (Dat.normPath "watch2.txt") [99]], isOwner := true }

/-- Claim C9 witness: on the concrete world a write of watch.txt and of
dont_watch.txt each append their notification to the subscription while a
write of watch2.txt leaves it unchanged. -/
theorem claim_C9_glob_star_delivery_witness :
    ((Dat.step c9W (.write "watch.txt" (Dat.FileData.str [97]) none)).subs)[0]?
      = some { c9Sub with delivered := c9Sub.delivered ++ [⟨1, "/watch.txt"⟩] } ∧
    ((Dat.step c9W (.write "dont_watch.txt" (Dat.FileData.str [98]) none)).subs)[0]?
      = some { c9Sub with delivered := c9Sub.delivered ++ [⟨1, "/dont_watch.txt"⟩] } ∧
    ((Dat.step c9W (.write "watch2.txt" (Dat.FileData.str [99]) none)).subs)[0]?
      = some c9Sub :=
  ⟨claim_C9_glob_star_delivery.2.2.2.1 c9W 0 c9Sub (Dat.FileData.str [97]) none c9A1
     (by decide) (by decide) (by decide) (by decide) (by decide) (by rfl),
   claim_C9_glob_star_delivery.2.2.2.2.1 c9W 0 c9Sub (Dat.FileData.str [98]) none c9A2
     (by decide) (by decide) (by decide) (by decide) (by decide) (by rfl),
   claim_C9_glob_star_delivery.2.2.2.2.2 c9W 0 c9Sub (Dat.FileData.str [99]) none c9A3
     (by decide) (by decide) (by rfl)⟩
